import Mathlib

/-!
# Verification of the cyclicdeadline scheduling-latency test core

A shallow embedding of the core algorithms of `src/sched_deadline/cyclicdeadline.c`:

* the CPU interval-list algebra (`add_cpus`, `count_cpus`, `make_new_list`,
  `make_other_cpu_list`, `calc_nr_cpus`),
* the per-cycle statistics update of `do_runtime` and the report renderers
  (`print_stat`, `write_stats`),
* the per-worker schedule computation and duty-percent reduction in `main`,
* a transition-system model of the barrier-driven startup protocol between
  the coordinator (`main`) and the workers (`run_deadline`).

Machine timestamps and CPU numbers are modelled as `Int`/`Nat`; the `double`
average accumulator is modelled as `ℚ`; the fallible parser returns `Option`
(with an outer `Option` layer as fuel marker for the C loop that does not
always advance its cursor).
-/

/-! ## CPU interval lists (`struct cpu_list` and friends) -/

/-- A `struct cpu_list` node: `(start_cpu, end_cpu)`. -/
abbrev CpuI := Int × Int

/-- The inner concatenation loop of `add_cpus`: starting from current end
`b`, absorb every following node whose `start_cpu <= end_cpu + 1`, taking its
end as the new current end; return the final current end and the remaining
nodes. -/
def absorb (e : Int) : Int → List CpuI → Int × List CpuI
  | b, [] => (b, [])
  | b, (c, d) :: rest => if c ≤ e + 1 then absorb e d rest else (b, (c, d) :: rest)

/-- `add_cpus` from the source: walk the list while `end_cpu + 1 < start_cpu`;
append if the list is exhausted; else try the concatenation branch
(`end_cpu > cur.start && start_cpu <= cur.end + 1`), then the overlap branch
(`end_cpu >= cur.start - 1`), else link a new node after the current one. -/
def add_cpus : List CpuI → Int → Int → List CpuI
  | [], s, e => [(s, e)]
  | (a, b) :: rest, s, e =>
    if b + 1 < s then
      (a, b) :: add_cpus rest s e
    else if e > a ∧ s ≤ b + 1 then
      let p := absorb e b rest
      ((if s < a then s else a), if p.1 < e then e else p.1) :: p.2
    else if e ≥ a - 1 then
      (s, b) :: rest
    else
      (a, b) :: (s, e) :: rest

/-- Insert a collection of intervals one by one through `add_cpus`,
starting from the empty list (`cpu_list = NULL`). -/
def addAll (l : List CpuI) : List CpuI :=
  l.foldl (fun acc p => add_cpus acc p.1 p.2) []

/-- `count_cpus`: total the sizes `(end - start) + 1` of all nodes and
fail with `-1` if any node's `end_cpu` reaches `cpu_count`. -/
def count_cpus (cpuCount : Int) (l : List CpuI) : Int :=
  if l.any (fun p => p.2 ≥ cpuCount) then -1
  else l.foldl (fun acc p => acc + (p.2 - p.1) + 1) 0

/-- Decimal rendering of a C `int` (the `%d` conversions in `append_cpus`). -/
def intStr (i : Int) : String :=
  if i < 0 then "-" ++ Nat.repr i.natAbs else Nat.repr i.natAbs

/-- `append_cpus`: append `<comma><start>` or `<comma><start>-<end>` to the
buffer. -/
def append_cpus (buf : String) (s e : Int) (comma : String) : String :=
  if s = e then buf ++ comma ++ intStr s
  else buf ++ comma ++ intStr s ++ "-" ++ intStr e

/-- The loop body of `make_new_list`, carrying the current separator. -/
def makeNewListGo : List CpuI → String → String → String
  | [], buf, _ => buf
  | (a, b) :: rest, buf, comma => makeNewListGo rest (append_cpus buf a b comma) ","

/-- `make_new_list`: render a cpu list to canonical text, comma separated. -/
def make_new_list (l : List CpuI) : String :=
  makeNewListGo l "" ""

/-! ### libc helpers used by the parsers -/

/-- C `isdigit`: ASCII codes 48 (`'0'`) through 57 (`'9'`). -/
def isDigitC (c : Char) : Bool := 48 ≤ c.toNat && c.toNat ≤ 57

/-- C `isspace` (the characters skipped by `atoi`): space (32) and the
control characters 9–13. -/
def isSpaceC (c : Char) : Bool := c.toNat = 32 || (9 ≤ c.toNat && c.toNat ≤ 13)

/-- Value of the leading run of decimal digits (0 if there is none). -/
def digitsVal (cs : List Char) : Nat :=
  (cs.takeWhile isDigitC).foldl (fun acc c => acc * 10 + (c.toNat - 48)) 0

/-- C `atoi`: skip whitespace, read an optional sign, then leading digits. -/
def atoi (cs : List Char) : Int :=
  match cs.dropWhile isSpaceC with
  | '-' :: r => -(digitsVal r : Int)
  | '+' :: r => (digitsVal r : Int)
  | r => (digitsVal r : Int)

/-- One pass of the `for (p = setcpu; *p; )` loop of `calc_nr_cpus`, with
explicit fuel: the C loop does not always advance `p` (for instance on
stray `'+'` characters it loops forever), so running out of fuel (`none`)
models divergence.  `some none` is the `err` exit (return `-1`),
`some (some l)` the successful exit with the built cpu list. -/
def calcLoop : Nat → List Char → List CpuI → Option (Option (List CpuI))
  | _, [], acc => some (some acc)
  | 0, _ :: _, _ => none
  | fuel + 1, c :: t, acc =>
    let cpu := atoi (c :: t)
    if cpu < 0 ∨ (cpu = 0 ∧ c ≠ '0') then some none
    else
      let p1 := (c :: t).dropWhile isDigitC
      if p1.head? = some '-' then
        let p2 := p1.tail
        let endv := atoi p2
        if endv < cpu ∨ (endv = 0 ∧ p2.head? ≠ some '0') then some none
        else
          let p3 := p2.dropWhile isDigitC
          let acc1 := add_cpus acc cpu endv
          let p4 := if p3.head? = some ',' then p3.tail else p3
          calcLoop fuel p4 acc1
      else
        let acc1 := add_cpus acc cpu cpu
        let p4 := if p1.head? = some ',' then p1.tail else p1
        calcLoop fuel p4 acc1

/-- `calc_nr_cpus`: run the parse loop; on error return `-1` (after freeing),
on success return `count_cpus` of the built list.  `none` models the C loop
failing to terminate. -/
def calc_nr_cpus (cpuCount : Int) (fuel : Nat) (cs : List Char) : Option Int :=
  match calcLoop fuel cs [] with
  | none => none
  | some none => some (-1)
  | some (some l) => some (count_cpus cpuCount l)

/-- The rendered buffer produced by `calc_nr_cpus` through `make_new_list`
on the successful path. -/
def calcBuf (fuel : Nat) (cs : List Char) : Option String :=
  match calcLoop fuel cs [] with
  | none => none
  | some none => none
  | some (some l) => some (make_new_list l)

/-- One iteration of `make_other_cpu_list`'s while loop (fuelled; the loop
condition is `*p && curr_cpu < cpu_count`).  State: remaining text, `curr_cpu`,
the last parsed `cpu`, the buffer and separator so far; the separator is
threaded out because the final append after the loop uses it. -/
def makeOtherGo (cpuCount : Int) : Nat → List Char → Int → Int → String → String → String × String × Int × Int
  | 0, _, currCpu, cpu, buf, comma => (buf, comma, currCpu, cpu)
  | _ + 1, [], currCpu, cpu, buf, comma => (buf, comma, currCpu, cpu)
  | fuel + 1, p@(_ :: _), currCpu, cpu0, buf, comma =>
    if currCpu < cpuCount then
      let cpu := atoi p
      let (buf1, comma1) :=
        if cpu > currCpu then (append_cpus buf currCpu (cpu - 1) comma, ",")
        else (buf, comma)
      let p1 := p.dropWhile isDigitC
      let (cpu2, p2) :=
        if p1.head? = some '-' then
          (atoi p1.tail, p1.tail.dropWhile isDigitC)
        else (cpu, p1)
      let curr2 := cpu2 + 1
      let p3 := if p2 = [] then p2 else p2.tail
      makeOtherGo cpuCount fuel p3 curr2 cpu2 buf1 comma1
    else (buf, comma, currCpu, cpu0)

/-- `make_other_cpu_list`: the complement list over `[0, cpu_count)`,
rendered to text.  The final gap is appended with the separator the loop
left behind (still `""` when the loop emitted nothing). -/
def make_other_cpu_list (cpuCount : Int) (fuel : Nat) (cs : List Char) : String :=
  let (buf, comma, currCpu, _) := makeOtherGo cpuCount fuel cs 0 0 "" ""
  if currCpu < cpuCount then append_cpus buf currCpu (cpuCount - 1) comma
  else buf

/-! ### Token grammar for the range expressions (spec §4.1) -/

/-- Split an expression at commas (the token boundaries of the grammar
`expr := token (',' token)*`). -/
def tokSplit : List Char → List (List Char)
  | [] => [[]]
  | c :: t =>
    if c = ',' then [] :: tokSplit t
    else
      match tokSplit t with
      | [] => [[c]]
      | h :: r => (c :: h) :: r

/-- A well-formed token: `N` (nonempty digits) or `N-M` (both nonempty digit
strings) with `N ≤ M`. -/
def validTok (t : List Char) : Bool :=
  let a := t.takeWhile isDigitC
  let r := t.drop a.length
  a ≠ [] && (r = [] ||
    (r.head? = some '-' && r.tail ≠ [] && r.tail.all isDigitC &&
      digitsVal a ≤ digitsVal r.tail))

/-!
### Smoke checks (claims C1 and C5 rest on these definitions)
-/

example : addAll [((0 : Int), (0 : Int)), (2, 4), (5, 5)] = [(0, 0), (2, 5)] := by decide

example : make_new_list [((0 : Int), (0 : Int)), (2, 5)] = "0,2-5" := by decide

/-! ## Per-cycle statistics (`struct thread_stat` and `do_runtime`) -/

/-- The fields of `struct thread_stat` used by the measurement loop.  The
`double avg` accumulator is modelled as `ℚ`. -/
structure ThreadStat where
  cycles : Nat
  min : Int
  max : Int
  act : Int
  avg : ℚ
deriving DecidableEq, Repr

/-- A zeroed statistics slot (`calloc` in `main`). -/
def initStat : ThreadStat := ⟨0, 0, 0, 0, 0⟩

/-- The statistics block at the end of `do_runtime`: update max, the
0-is-unset running min (`!stat->min || diff < stat->min`), the current
value, the average accumulator, and the cycle counter. -/
def statRecord (st : ThreadStat) (diff : Int) : ThreadStat :=
  { cycles := st.cycles + 1
    min := if st.min = 0 ∨ diff < st.min then diff else st.min
    max := if diff > st.max then diff else st.max
    act := diff
    avg := st.avg + (diff : ℚ) }

/-- `do_runtime`: compute `now`, snap the period forward when the thread woke
before the intended boundary (`now < period`), record the latency
`diff = now - period`, and return the next period boundary. -/
def do_runtime (deadline_us : Nat) (nowT period : Nat) (st : ThreadStat) : Nat × ThreadStat :=
  let period1 := if nowT < period then nowT else period
  let diff : Int := (nowT : Int) - (period1 : Int)
  (period1 + deadline_us, statRecord st diff)

/-- Feed a list of latency samples through the statistics update. -/
def statFold (l : List Int) : ThreadStat :=
  l.foldl statRecord initStat

/-- The reported running minimum after a list of samples. -/
def reportedMin (l : List Int) : Int := (statFold l).min

/-- The true minimum of a nonempty list of samples (0 for an empty list). -/
def listMin : List Int → Int
  | [] => 0
  | d :: t => t.foldl min d

/-- C cast of a `double` to `long`: truncation toward zero. -/
def ratTrunc (q : ℚ) : Int := if 0 ≤ q then ⌊q⌋ else -⌊-q⌋

/-- The average rendered by `print_stat`:
`stat->cycles ? (long)(stat->avg/stat->cycles) : 0`. -/
def print_stat_avg (st : ThreadStat) : Int :=
  if st.cycles ≠ 0 then ratTrunc (st.avg / (st.cycles : ℚ)) else 0

/-- The average rendered by `write_stats`: the unguarded double division
`s->avg/s->cycles`.  For `cycles = 0` the IEEE result is inf or nan — no
rational number is printed — modelled as `none`. -/
def write_stats_avg (st : ThreadStat) : Option ℚ :=
  if st.cycles = 0 then none else some (st.avg / (st.cycles : ℚ))

/-- The calibration call `do_runtime(gettid(), sd, start_period)` that `main`
performs on each worker's slot before creating any thread. -/
def calibrate (deadline_us nowT startPeriod : Nat) : Nat × ThreadStat :=
  do_runtime deadline_us nowT startPeriod initStat

/-! ## Per-worker schedule computation in `main` -/

/-- The schedule set-up loop of `main`: for each thread,
`runtime = interval * percent / 100` (C `unsigned int` arithmetic, hence the
`% 2^32`), `deadline_us = interval`, then `interval += step`.  Returns the
list of `(runtime_us, deadline_us)` pairs. -/
def mkScheds : Nat → Nat → Nat → Nat → List (Nat × Nat)
  | 0, _, _, _ => []
  | n + 1, interval, step, percent =>
    ((interval * percent) % 2 ^ 32 / 100, interval) ::
      mkScheds n ((interval + step) % 2 ^ 32) step percent

/-- The duty-cycle percentage: 60, reduced to `nr_cpus * 80 / nr_threads`
when there are more threads than CPUs. -/
def percent_of (nrCpus nrThreads : Nat) : Nat :=
  if nrThreads > nrCpus then nrCpus * 80 / nrThreads else 60

/-- Aggregate requested utilization of a schedule list: the sum of
`runtime_us / deadline_us` as rationals. -/
def usum (l : List (Nat × Nat)) : ℚ :=
  (l.map (fun p => (p.1 : ℚ) / (p.2 : ℚ))).sum

/-- Sum of a list of integer samples, as a rational. -/
def ratSum (l : List Int) : ℚ := (l.map (Int.cast : Int → ℚ)).sum

/-! ## Helper lemmas about the statistics fold -/

/-- The bare min update of `do_runtime` (`!stat->min || diff < stat->min`). -/
def minUpd (m d : Int) : Int := if m = 0 ∨ d < m then d else m

theorem foldl_statRecord_min (l : List Int) (st : ThreadStat) :
    (l.foldl statRecord st).min = l.foldl minUpd st.min := by
  induction l generalizing st with
  | nil => rfl
  | cons d t ih => simpa [statRecord, minUpd] using ih (statRecord st d)

theorem foldl_statRecord_cycles (l : List Int) (st : ThreadStat) :
    (l.foldl statRecord st).cycles = st.cycles + l.length := by
  induction l generalizing st with
  | nil => simp
  | cons d t ih =>
    rw [List.foldl_cons, ih (statRecord st d)]
    show st.cycles + 1 + t.length = st.cycles + (d :: t).length
    simp
    omega

theorem foldl_statRecord_avg (l : List Int) (st : ThreadStat) :
    (l.foldl statRecord st).avg = st.avg + ratSum l := by
  induction l generalizing st with
  | nil => simp [ratSum]
  | cons d t ih =>
    rw [List.foldl_cons, ih (statRecord st d)]
    show st.avg + (d : ℚ) + ratSum t = st.avg + ratSum (d :: t)
    simp [ratSum]
    ring

theorem foldl_statRecord_max_mono (l : List Int) (st : ThreadStat) :
    st.max ≤ (l.foldl statRecord st).max := by
  induction l generalizing st with
  | nil => simp
  | cons d t ih =>
    refine le_trans ?_ (ih (statRecord st d))
    show st.max ≤ if d > st.max then d else st.max
    split <;> omega

/-! ## Claim C3: drift resync in `do_runtime` -/

/-- Claim C3: whenever `now < period`, `do_runtime` snaps the period start
forward to `now`, records a latency of exactly 0 for that cycle (so the
average accumulator is unchanged) and returns `now + deadline_us` as the next
boundary; and the recorded latency is never negative. -/
theorem C3_drift_resync (deadline nowT period : Nat) (st : ThreadStat) :
    (nowT < period →
      (do_runtime deadline nowT period st).2.act = 0 ∧
      (do_runtime deadline nowT period st).2.avg = st.avg ∧
      (do_runtime deadline nowT period st).1 = nowT + deadline) ∧
    0 ≤ (do_runtime deadline nowT period st).2.act := by
  constructor
  · intro h
    simp [do_runtime, statRecord, h]
  · by_cases h : nowT < period
    · simp [do_runtime, statRecord, h]
    · show (0 : Int) ≤ (nowT : Int) - (if nowT < period then (nowT : Nat) else period)
      simp [h]
      omega

/-- Witness for C3 at `now = 5 < period = 10`. -/
theorem C3_drift_resync_witness :
    (5 < 10) ∧ (do_runtime 1000 5 10 initStat).2.act = 0 ∧
      0 ≤ (do_runtime 1000 5 10 initStat).2.act :=
  ⟨by decide, ((C3_drift_resync 1000 5 10 initStat).1 (by decide)).1,
    (C3_drift_resync 1000 5 10 initStat).2⟩

/-! ## Claim C10: calibration sample recorded by `main` before thread start -/

/-- The statistics slot right after `main`'s calibration call. -/
def calibStat (deadline nowT startPeriod : Nat) : ThreadStat :=
  (calibrate deadline nowT startPeriod).2

theorem calibStat_fields (deadline nowT startT : Nat) :
    (calibStat deadline nowT startT).cycles = 1 ∧
    (calibStat deadline nowT startT).avg = ((calibStat deadline nowT startT).act : ℚ) ∧
    (calibStat deadline nowT startT).act ≤ (calibStat deadline nowT startT).max := by
  refine ⟨rfl, ?_, ?_⟩
  · show (0 : ℚ) + _ = _
    rw [zero_add]
    rfl
  · show ((nowT : Int) - _ : Int) ≤ if ((nowT : Int) - _ : Int) > 0 then _ else 0
    split <;> omega

/-- Claim C10: `main` runs one `do_runtime` on each worker slot before any
thread exists; afterwards, however many further samples `ds` the worker
thread itself records, the final statistics are exactly the fold over the
calibration sample followed by `ds`: the cycle count is `1 + |ds|` (hence at
least 1), the average accumulator contains the calibration latency, and the
maximum is at least the calibration latency. -/
theorem C10_calibration_sample (deadline nowT startT : Nat) (ds : List Int) :
    ds.foldl statRecord (calibStat deadline nowT startT) =
      ((calibStat deadline nowT startT).act :: ds).foldl statRecord initStat ∧
    (ds.foldl statRecord (calibStat deadline nowT startT)).cycles = 1 + ds.length ∧
    1 ≤ (ds.foldl statRecord (calibStat deadline nowT startT)).cycles ∧
    (ds.foldl statRecord (calibStat deadline nowT startT)).avg =
      ((calibStat deadline nowT startT).act : ℚ) + ratSum ds ∧
    (calibStat deadline nowT startT).act ≤
      (ds.foldl statRecord (calibStat deadline nowT startT)).max := by
  obtain ⟨hcy, hav, hmx⟩ := calibStat_fields deadline nowT startT
  have hst : statRecord initStat (calibStat deadline nowT startT).act =
      calibStat deadline nowT startT := rfl
  refine ⟨by rw [List.foldl_cons, hst], ?_, ?_, ?_, ?_⟩
  · rw [foldl_statRecord_cycles, hcy]
  · rw [foldl_statRecord_cycles, hcy]
    omega
  · rw [foldl_statRecord_avg, hav]
  · exact le_trans hmx (foldl_statRecord_max_mono ds _)

/-! ## Claim C4: rendered averages in the two reports -/

/-- Counterexample to claim C4: on a slot with cycle count 0 the
human-readable report renders 0, but the JSON path `s->avg/s->cycles`
divides by zero and renders no number at all (IEEE inf or nan), not 0. -/
theorem C4_counterexample :
    initStat.cycles = 0 ∧ print_stat_avg initStat = 0 ∧ write_stats_avg initStat = none := by
  refine ⟨rfl, ?_, ?_⟩ <;> simp [print_stat_avg, write_stats_avg, initStat]

/-- Claim C4 (amended): for statistics accumulated from samples `l`, the
human-readable average is `trunc(sum / count)` and the JSON average is the
exact rational `sum / count` whenever the cycle count is nonzero; for a zero
cycle count the human-readable average is 0 while the JSON average is an
unguarded division by zero (no number is rendered). -/
theorem C4_report_average (l : List Int) :
    (l ≠ [] →
      print_stat_avg (statFold l) = ratTrunc (ratSum l / (l.length : ℚ)) ∧
      write_stats_avg (statFold l) = some (ratSum l / (l.length : ℚ))) ∧
    (l = [] → print_stat_avg (statFold l) = 0 ∧ write_stats_avg (statFold l) = none) := by
  have hc : (statFold l).cycles = l.length := by
    simpa [initStat] using foldl_statRecord_cycles l initStat
  have ha : (statFold l).avg = ratSum l := by
    simpa [initStat] using foldl_statRecord_avg l initStat
  constructor
  · intro hne
    have hl : l.length ≠ 0 := by simpa using hne
    constructor
    · simp [print_stat_avg, hc, ha, hl]
    · simp [write_stats_avg, hc, ha, hl]
  · intro he
    subst he
    constructor
    · simp [print_stat_avg, statFold, initStat]
    · simp [write_stats_avg, statFold, initStat]

/-- Witness for the amended C4 on the spec's sample `[10, 20, 30]`. -/
theorem C4_report_average_witness :
    ([(10 : Int), 20, 30] ≠ []) ∧
    print_stat_avg (statFold [10, 20, 30]) = 20 ∧
    write_stats_avg (statFold [10, 20, 30]) = some 20 := by
  have h := (C4_report_average [10, 20, 30]).1 (by decide)
  refine ⟨by decide, ?_, ?_⟩
  · rw [h.1]
    norm_num [ratSum, ratTrunc]
  · rw [h.2]
    norm_num [ratSum]

/-! ## Claim C5: the worked parse / render / complement example -/

/-- Claim C5: parsing `"0,2-4,5"` builds the merged list `[(0,0),(2,5)]`
(4 and 5 being adjacent are absorbed into one interval), `make_new_list`
renders it as `"0,2-5"`, and `make_other_cpu_list` over `[0, 8)` renders the
complement `"1,6-7"`. -/
theorem C5_parse_render_complement :
    calcLoop 9 "0,2-4,5".toList [] = some (some [(0, 0), (2, 5)]) ∧
    calcBuf 9 "0,2-4,5".toList = some "0,2-5" ∧
    make_other_cpu_list 8 10 "0,2-5".toList = "1,6-7" := by
  decide

/-! ## Claim C7: the per-worker schedule formula -/

/-- Claim C7: worker `i`'s deadline is `base_interval + i * step` and its
runtime is `deadline * duty_percent / 100` (given that the C `unsigned int`
arithmetic does not wrap), and the concrete schedule for
`base=1000, step=500, n=3, duty=60` is deadlines `1000,1500,2000` with
runtimes `600,900,1200`. -/
theorem C7_schedule_formula (base step percent n : Nat)
    (h1 : base + n * step < 2 ^ 32) (h2 : (base + n * step) * percent < 2 ^ 32) :
    (∀ i, i < n → (mkScheds n base step percent).get? i =
      some ((base + i * step) * percent / 100, base + i * step)) ∧
    mkScheds 3 1000 500 60 = [(600, 1000), (900, 1500), (1200, 2000)] := by
  refine ⟨?_, by decide⟩
  induction n generalizing base with
  | zero => omega
  | succ n ih =>
    intro i hi
    have hlt1 : base * percent < 2 ^ 32 :=
      lt_of_le_of_lt (Nat.mul_le_mul_right percent (by omega)) h2
    have hstep : (n + 1) * step = n * step + step := by ring
    have hlt2 : base + step < 2 ^ 32 := by omega
    match i with
    | 0 =>
      show some (base * percent % 2 ^ 32 / 100, base) = _
      rw [Nat.mod_eq_of_lt hlt1]
      norm_num
    | i + 1 =>
      show (mkScheds n ((base + step) % 2 ^ 32) step percent).get? i = _
      rw [Nat.mod_eq_of_lt hlt2]
      have h1' : (base + step) + n * step < 2 ^ 32 := by omega
      have h2' : ((base + step) + n * step) * percent < 2 ^ 32 := by
        have heq : (base + step) + n * step = base + (n + 1) * step := by omega
        rw [heq]
        exact h2
      rw [ih (base + step) h1' h2' i (by omega)]
      have heq2 : base + step + i * step = base + (i + 1) * step := by ring
      rw [heq2]

/-- Witness for C7 at the spec's example parameters. -/
theorem C7_schedule_formula_witness :
    (1000 + 3 * 500 < 2 ^ 32) ∧ ((1000 + 3 * 500) * 60 < 2 ^ 32) ∧
    (mkScheds 3 1000 500 60).get? 1 = some (900, 1500) := by
  refine ⟨by norm_num, by norm_num, ?_⟩
  have h := (C7_schedule_formula 1000 500 60 3 (by norm_num) (by norm_num)).1 1 (by norm_num)
  simpa using h

/-! ## Claim C8: utilization bound after duty-percent reduction -/

theorem usum_cons (x : Nat × Nat) (l : List (Nat × Nat)) :
    usum (x :: l) = (x.1 : ℚ) / (x.2 : ℚ) + usum l := by
  simp [usum]

theorem usum_mkScheds_le (step p : Nat) : ∀ (n base : Nat), 0 < base →
    base + n * step < 2 ^ 32 → (base + n * step) * p < 2 ^ 32 →
    usum (mkScheds n base step p) ≤ (n : ℚ) * ((p : ℚ) / 100) := by
  intro n
  induction n with
  | zero =>
    intro base _ _ _
    simp [mkScheds, usum]
  | succ n ih =>
    intro base hb h1 h2
    have hlt1 : base * p < 2 ^ 32 :=
      lt_of_le_of_lt (Nat.mul_le_mul_right p (by omega)) h2
    have hstep : (n + 1) * step = n * step + step := by ring
    have hlt2 : base + step < 2 ^ 32 := by omega
    have h1' : (base + step) + n * step < 2 ^ 32 := by omega
    have h2' : ((base + step) + n * step) * p < 2 ^ 32 := by
      have heq : (base + step) + n * step = base + (n + 1) * step := by omega
      rw [heq]
      exact h2
    have hrec := ih (base + step) (by omega) h1' h2'
    have hb0 : (0 : ℚ) < (base : ℚ) := by exact_mod_cast hb
    have hhead : ((base * p / 100 : Nat) : ℚ) / (base : ℚ) ≤ (p : ℚ) / 100 := by
      have hle : ((base * p / 100 : Nat) : ℚ) ≤ ((base : ℚ) * (p : ℚ)) / 100 := by
        calc ((base * p / 100 : Nat) : ℚ) ≤ ((base * p : Nat) : ℚ) / ((100 : Nat) : ℚ) :=
              Nat.cast_div_le
          _ = ((base : ℚ) * (p : ℚ)) / 100 := by push_cast; ring
      calc ((base * p / 100 : Nat) : ℚ) / (base : ℚ)
          ≤ (((base : ℚ) * (p : ℚ)) / 100) / (base : ℚ) := by gcongr
        _ = (p : ℚ) / 100 := by
            field_simp
            ring
    have hunf : mkScheds (n + 1) base step p =
        (base * p % 2 ^ 32 / 100, base) :: mkScheds n ((base + step) % 2 ^ 32) step p := rfl
    rw [hunf, usum_cons, Nat.mod_eq_of_lt hlt1, Nat.mod_eq_of_lt hlt2]
    calc ((base * p / 100 : Nat) : ℚ) / (base : ℚ) + usum (mkScheds n (base + step) step p)
        ≤ (p : ℚ) / 100 + (n : ℚ) * ((p : ℚ) / 100) := add_le_add hhead hrec
      _ = ((n + 1 : Nat) : ℚ) * ((p : ℚ) / 100) := by push_cast; ring

/-- Claim C8: when `nr_threads > nr_cpus` the duty percentage becomes
`nr_cpus * 80 / nr_threads`, and the total requested utilization
`Σ runtime_us / deadline_us` over the computed schedule stays at most
`0.8 * nr_cpus` (given a positive base interval and no `unsigned`
wraparound). -/
theorem C8_utilization_bound (nrCpus base step n : Nat) (h : nrCpus < n) (hb : 0 < base)
    (h1 : base + n * step < 2 ^ 32)
    (h2 : (base + n * step) * percent_of nrCpus n < 2 ^ 32) :
    usum (mkScheds n base step (percent_of nrCpus n)) ≤ (4 / 5 : ℚ) * (nrCpus : ℚ) := by
  have hp : percent_of nrCpus n = nrCpus * 80 / n := by
    simp [percent_of, h]
  have hn : 0 < n := by omega
  have hn0 : (0 : ℚ) < (n : ℚ) := by exact_mod_cast hn
  calc usum (mkScheds n base step (percent_of nrCpus n))
      ≤ (n : ℚ) * ((percent_of nrCpus n : ℚ) / 100) :=
        usum_mkScheds_le step _ n base hb h1 h2
    _ ≤ (n : ℚ) * ((((nrCpus * 80 : Nat) : ℚ) / (n : ℚ)) / 100) := by
        gcongr
        rw [hp]
        exact_mod_cast Nat.cast_div_le
    _ = (4 / 5 : ℚ) * (nrCpus : ℚ) := by
        field_simp
        ring

/-- Witness for C8: 5 workers on 2 CPUs, base 1000us, step 500us. -/
theorem C8_utilization_bound_witness :
    (2 < 5) ∧ (0 < 1000) ∧ (1000 + 5 * 500 < 2 ^ 32) ∧
    ((1000 + 5 * 500) * percent_of 2 5 < 2 ^ 32) ∧
    usum (mkScheds 5 1000 500 (percent_of 2 5)) ≤ (4 / 5 : ℚ) * (2 : ℚ) :=
  ⟨by norm_num, by norm_num, by norm_num, by norm_num [percent_of],
    C8_utilization_bound 2 1000 500 5 (by norm_num) (by norm_num) (by norm_num)
      (by norm_num [percent_of])⟩

/-! ## Claim C9: the 0-is-unset running minimum -/

theorem foldl_minUpd_nonneg : ∀ (l : List Int) (m : Int), 0 ≤ m → (∀ d ∈ l, 0 ≤ d) →
    0 ≤ l.foldl minUpd m := by
  intro l
  induction l with
  | nil => intro m hm _; simpa using hm
  | cons d t ih =>
    intro m hm hl
    have hd : 0 ≤ d := hl d (by simp)
    refine ih (minUpd m d) ?_ (fun x hx => hl x (by simp [hx]))
    unfold minUpd
    split <;> omega

theorem minUpd_pos_eq_min (m d : Int) (hm : 0 < m) : minUpd m d = min m d := by
  by_cases hdm : d < m
  · rw [min_eq_right (le_of_lt hdm)]
    simp [minUpd, hdm]
  · rw [min_eq_left (by omega)]
    have hc : ¬(m = 0 ∨ d < m) := by omega
    simp [minUpd, hc]

theorem foldl_minUpd_pos_eq : ∀ (l : List Int) (m : Int), 0 < m → (∀ d ∈ l, 0 < d) →
    l.foldl minUpd m = l.foldl min m ∧ 0 < l.foldl min m := by
  intro l
  induction l with
  | nil => intro m hm _; exact ⟨rfl, hm⟩
  | cons d t ih =>
    intro m hm hl
    have hd : 0 < d := hl d (by simp)
    have hmin : 0 < min m d := lt_min hm hd
    have := ih (min m d) hmin (fun x hx => hl x (by simp [hx]))
    simpa [minUpd_pos_eq_min m d hm] using this

theorem foldl_min_le_self : ∀ (l : List Int) (m : Int), l.foldl min m ≤ m := by
  intro l
  induction l with
  | nil => simp
  | cons d t ih =>
    intro m
    exact le_trans (ih (min m d)) (min_le_left m d)

theorem foldl_min_le_mem : ∀ (l : List Int) (m x : Int), x ∈ l → l.foldl min m ≤ x := by
  intro l
  induction l with
  | nil => intro m x hx; simp at hx
  | cons d t ih =>
    intro m x hx
    rcases List.mem_cons.mp hx with h | h
    · subst h
      exact le_trans (foldl_min_le_self t (min m x)) (min_le_right m x)
    · exact ih (min m d) x h

theorem le_foldl_min : ∀ (l : List Int) (m c : Int), c ≤ m → (∀ d ∈ l, c ≤ d) →
    c ≤ l.foldl min m := by
  intro l
  induction l with
  | nil => intro m c hc _; simpa using hc
  | cons d t ih =>
    intro m c hc hl
    exact ih (min m d) c (le_min hc (hl d (by simp))) (fun x hx => hl x (by simp [hx]))

theorem listMin_le_mem (l : List Int) (x : Int) (h : x ∈ l) : listMin l ≤ x := by
  cases l with
  | nil => simp at h
  | cons d t =>
    rcases List.mem_cons.mp h with h | h
    · subst h
      exact foldl_min_le_self t x
    · exact foldl_min_le_mem t d x h

theorem listMin_nonneg (l : List Int) (hne : l ≠ []) (h : ∀ d ∈ l, 0 ≤ d) :
    0 ≤ listMin l := by
  cases l with
  | nil => exact absurd rfl hne
  | cons d t =>
    exact le_foldl_min t d 0 (h d (by simp)) (fun x hx => h x (by simp [hx]))

theorem listMin_eq_zero (l : List Int) (h0 : (0 : Int) ∈ l) (hnn : ∀ d ∈ l, 0 ≤ d) :
    listMin l = 0 :=
  le_antisymm (listMin_le_mem l 0 h0) (listMin_nonneg l (List.ne_nil_of_mem h0) hnn)

theorem last_zero_split : ∀ (l : List Int), (0 : Int) ∈ l →
    ∃ l₁ l₂, l = l₁ ++ 0 :: l₂ ∧ (0 : Int) ∉ l₂ := by
  intro l
  induction l with
  | nil => intro h; simp at h
  | cons d t ih =>
    intro h
    by_cases ht : (0 : Int) ∈ t
    · obtain ⟨t₁, t₂, heq, hmem⟩ := ih ht
      exact ⟨d :: t₁, t₂, by simp [heq], hmem⟩
    · have hd : d = 0 := by
        rcases List.mem_cons.mp h with h | h
        · omega
        · exact absurd h ht
      exact ⟨[], t, by simp [hd], ht⟩

theorem exists_getLast?_cons : ∀ (t : List Int) (d : Int),
    ∃ x, (d :: t).getLast? = some x ∧ x ∈ d :: t := by
  intro t
  induction t with
  | nil => intro d; exact ⟨d, rfl, by simp⟩
  | cons e t' ih =>
    intro d
    obtain ⟨x, hx, hmem⟩ := ih e
    exact ⟨x, by rw [List.getLast?_cons_cons]; exact hx, List.mem_cons_of_mem d hmem⟩

theorem getLast?_append_cons : ∀ (l₁ : List Int) (x : Int) (l₂ : List Int),
    (l₁ ++ x :: l₂).getLast? = (x :: l₂).getLast? := by
  intro l₁
  induction l₁ with
  | nil => intro x l₂; rfl
  | cons a l₁ ih =>
    intro x l₂
    have hsh : ∃ y t, l₁ ++ x :: l₂ = y :: t := by
      cases l₁ with
      | nil => exact ⟨x, l₂, rfl⟩
      | cons b t' => exact ⟨b, t' ++ x :: l₂, rfl⟩
    obtain ⟨y, t, heq⟩ := hsh
    calc ((a :: l₁) ++ x :: l₂).getLast? = (a :: (l₁ ++ x :: l₂)).getLast? := by simp
      _ = (l₁ ++ x :: l₂).getLast? := by rw [heq, List.getLast?_cons_cons]
      _ = (x :: l₂).getLast? := ih x l₂

theorem minUpd_zero_right (m : Int) (hm : 0 ≤ m) : minUpd m 0 = 0 := by
  unfold minUpd
  split <;> omega

theorem reportedMin_eq_foldl (l : List Int) : reportedMin l = l.foldl minUpd 0 := by
  have h := foldl_statRecord_min l initStat
  simpa [reportedMin, statFold, initStat] using h

/-- Counterexample to claim C9: for the latency sequence `[5, 0]` the
reported min equals the true minimum (both 0) although the latencies are
neither all positive nor all zero — recording a 0 after a positive sample
resets the min to 0, so “equals the true minimum only when all latencies are
positive or all are zero” fails. -/
theorem C9_counterexample :
    reportedMin [5, 0] = listMin [5, 0] ∧
    ¬((∀ d ∈ [(5 : Int), 0], 0 < d) ∨ (∀ d ∈ [(5 : Int), 0], d = 0)) := by
  constructor
  · rw [reportedMin_eq_foldl]
    decide
  · decide

/-- Claim C9 (amended): `do_runtime`'s running minimum treats 0 as the
"unset" sentinel, so a recorded 0 leaves the minimum unset; consequently the
reported min equals the true minimum of the (nonnegative) recorded latencies
exactly when either no latency was 0, or the last recorded latency was 0. -/
theorem C9_min_sentinel (l : List Int) (hne : l ≠ []) (hnn : ∀ d ∈ l, 0 ≤ d) :
    reportedMin l = listMin l ↔ ((0 : Int) ∉ l ∨ l.getLast? = some 0) := by
  rw [reportedMin_eq_foldl]
  by_cases h0 : (0 : Int) ∈ l
  · obtain ⟨l₁, l₂, rfl, hl₂⟩ := last_zero_split l h0
    have hnn₁ : ∀ d ∈ l₁, 0 ≤ d := fun d hd => hnn d (by simp [hd])
    have hM : 0 ≤ l₁.foldl minUpd 0 := foldl_minUpd_nonneg l₁ 0 le_rfl hnn₁
    have hmid : (l₁ ++ 0 :: l₂).foldl minUpd 0 = l₂.foldl minUpd 0 := by
      rw [List.foldl_append, List.foldl_cons]
      congr 1
      exact minUpd_zero_right _ hM
    have hzero : listMin (l₁ ++ 0 :: l₂) = 0 := listMin_eq_zero _ h0 hnn
    rw [hmid, hzero]
    cases l₂ with
    | nil =>
      have hlast : (l₁ ++ [(0 : Int)]).getLast? = some 0 := getLast?_append_cons l₁ 0 []
      exact iff_of_true rfl (Or.inr hlast)
    | cons d₂ t₂ =>
      have hpos : ∀ d ∈ d₂ :: t₂, 0 < d := by
        intro d hd
        have h1 : 0 ≤ d := hnn d (by simp [hd])
        have h2 : d ≠ 0 := fun he => hl₂ (he ▸ hd)
        omega
      have hd₂ : 0 < d₂ := hpos d₂ (by simp)
      have hstep : (d₂ :: t₂).foldl minUpd 0 = t₂.foldl minUpd d₂ := by
        rw [List.foldl_cons]
        congr 1
      have hposmin := foldl_minUpd_pos_eq t₂ d₂ hd₂ (fun x hx => hpos x (by simp [hx]))
      have hne0 : (d₂ :: t₂).foldl minUpd 0 ≠ 0 := by
        rw [hstep, hposmin.1]
        omega
      have hlast : (l₁ ++ 0 :: d₂ :: t₂).getLast? ≠ some 0 := by
        rw [getLast?_append_cons, List.getLast?_cons_cons]
        obtain ⟨x, hx, hmem⟩ := exists_getLast?_cons t₂ d₂
        rw [hx]
        have : x ≠ 0 := by
          have := hpos x hmem
          omega
        simp [this]
      refine iff_of_false hne0 ?_
      rintro (hA | hB)
      · exact hA h0
      · exact hlast hB
  · have hpos : ∀ d ∈ l, 0 < d := by
      intro d hd
      have h1 : 0 ≤ d := hnn d hd
      have h2 : d ≠ 0 := fun he => h0 (he ▸ hd)
      omega
    cases l with
    | nil => exact absurd rfl hne
    | cons d t =>
      have hd : 0 < d := hpos d (by simp)
      have hstep : (d :: t).foldl minUpd 0 = t.foldl minUpd d := by
        rw [List.foldl_cons]
        congr 1
      have hposmin := foldl_minUpd_pos_eq t d hd (fun x hx => hpos x (by simp [hx]))
      rw [hstep, hposmin.1]
      exact iff_of_true rfl (Or.inl h0)

/-- Witness for the amended C9 on the all-positive sample `[3, 1, 2]`. -/
theorem C9_min_sentinel_witness :
    ([(3 : Int), 1, 2] ≠ []) ∧ (∀ d ∈ [(3 : Int), 1, 2], 0 ≤ d) ∧
    (reportedMin [3, 1, 2] = listMin [3, 1, 2] ↔
      ((0 : Int) ∉ [(3 : Int), 1, 2] ∨ [(3 : Int), 1, 2].getLast? = some 0)) :=
  ⟨by decide, by decide, C9_min_sentinel [3, 1, 2] (by decide) (by decide)⟩

/-! ## Claim C1: insertion order and the merged interval list -/

/-- Normalized interval list: each node is valid (`start ≤ end`) and every
later node starts at least two past this node's end (non-overlapping,
non-adjacent, strictly increasing). -/
def NormL : List CpuI → Prop
  | [] => True
  | (a, b) :: t => a ≤ b ∧ (∀ p ∈ t, b + 1 < p.1) ∧ NormL t

/-- The set of CPUs covered by an interval list. -/
def cover (l : List CpuI) (x : Int) : Prop := ∃ p ∈ l, p.1 ≤ x ∧ x ≤ p.2

theorem cover_nil (x : Int) : ¬ cover [] x := by
  rintro ⟨p, hp, _⟩
  simp at hp

theorem cover_cons (a b : Int) (t : List CpuI) (x : Int) :
    cover ((a, b) :: t) x ↔ (a ≤ x ∧ x ≤ b) ∨ cover t x := by
  constructor
  · rintro ⟨p, hp, hx⟩
    rcases List.mem_cons.mp hp with h | h
    · subst h
      exact Or.inl hx
    · exact Or.inr ⟨p, h, hx⟩
  · rintro (h | ⟨p, hp, hx⟩)
    · exact ⟨(a, b), by simp, h⟩
    · exact ⟨p, by simp [hp], hx⟩

theorem absorb_spec (s e : Int) (hs : s ≤ e) :
    ∀ (rest : List CpuI) (a b : Int), a ≤ b → (∀ p ∈ rest, b + 1 < p.1) → NormL rest →
      a ≤ s → s ≤ b + 1 →
      NormL ((a, if (absorb e b rest).1 < e then e else (absorb e b rest).1) :: (absorb e b rest).2) ∧
      (∀ x, cover ((a, if (absorb e b rest).1 < e then e else (absorb e b rest).1) ::
          (absorb e b rest).2) x ↔ cover ((a, b) :: rest) x ∨ (s ≤ x ∧ x ≤ e)) ∧
      (∀ p ∈ (absorb e b rest).2, p ∈ rest) := by
  intro rest
  induction rest with
  | nil =>
    intro a b hab _ _ has hsb
    have hunf : absorb e b [] = (b, []) := rfl
    simp only [hunf]
    refine ⟨⟨by split <;> omega, by simp, trivial⟩, ?_, by simp⟩
    intro x
    simp only [cover_cons]
    simp only [cover_nil x, or_false]
    split <;> omega
  | cons cd rest' ih =>
    obtain ⟨c, d⟩ := cd
    intro a b hab hbrest hNrest has hsb
    obtain ⟨hcd, hdrest, hNrest'⟩ := hNrest
    have hbc : b + 1 < c := hbrest (c, d) (by simp)
    by_cases hc : c ≤ e + 1
    · have hunf : absorb e b ((c, d) :: rest') = absorb e d rest' := by
        simp [absorb, hc]
      have hres := ih a d (by omega) hdrest hNrest' has (by omega)
      simp only [hunf]
      refine ⟨hres.1, ?_, ?_⟩
      · intro x
        rw [(hres.2.1) x]
        simp only [cover_cons]
        constructor
        · rintro ((⟨h1, h2⟩ | hr) | hS)
          · by_cases hxb : x ≤ b
            · exact Or.inl (Or.inl ⟨h1, hxb⟩)
            · by_cases hxc : c ≤ x
              · exact Or.inl (Or.inr (Or.inl ⟨hxc, h2⟩))
              · exact Or.inr (by omega)
          · exact Or.inl (Or.inr (Or.inr hr))
          · exact Or.inr hS
        · rintro ((⟨h1, h2⟩ | ⟨h1, h2⟩ | hr) | hS)
          · exact Or.inl (Or.inl ⟨h1, by omega⟩)
          · exact Or.inl (Or.inl ⟨by omega, h2⟩)
          · exact Or.inl (Or.inr hr)
          · exact Or.inr hS
      · intro p hp
        exact List.mem_cons_of_mem _ (hres.2.2 p hp)
    · have hunf : absorb e b ((c, d) :: rest') = (b, (c, d) :: rest') := by
        simp [absorb, hc]
      simp only [hunf]
      refine ⟨⟨by split <;> omega, ?_, ⟨hcd, hdrest, hNrest'⟩⟩, ?_, by simp⟩
      · intro p hp
        rcases List.mem_cons.mp hp with h | h
        · subst h
          split <;> omega
        · have := hdrest p h
          split <;> omega
      · intro x
        simp only [cover_cons]
        constructor
        · rintro (⟨h1, h2⟩ | hcd2 | hr)
          · by_cases hxb : x ≤ b
            · exact Or.inl (Or.inl ⟨h1, hxb⟩)
            · have hxe : x ≤ e := by
                by_cases hbe : b < e
                · rw [if_pos hbe] at h2
                  exact h2
                · rw [if_neg hbe] at h2
                  omega
              exact Or.inr ⟨by omega, hxe⟩
          · exact Or.inl (Or.inr (Or.inl hcd2))
          · exact Or.inl (Or.inr (Or.inr hr))
        · rintro ((⟨h1, h2⟩ | hcd2 | hr) | ⟨h1, h2⟩)
          · exact Or.inl ⟨h1, by split <;> omega⟩
          · exact Or.inr (Or.inl hcd2)
          · exact Or.inr (Or.inr hr)
          · exact Or.inl ⟨by omega, by split <;> omega⟩

theorem add_spec : ∀ (l : List CpuI) (s e : Int), NormL l → s ≤ e → (∀ p ∈ l, p.1 ≤ s) →
    NormL (add_cpus l s e) ∧
    (∀ x, cover (add_cpus l s e) x ↔ cover l x ∨ (s ≤ x ∧ x ≤ e)) ∧
    (∀ p ∈ add_cpus l s e, p.1 = s ∨ ∃ q ∈ l, p.1 = q.1) := by
  intro l
  induction l with
  | nil =>
    intro s e _ hse _
    refine ⟨⟨hse, by simp, trivial⟩, ?_, ?_⟩
    · intro x
      rw [show add_cpus [] s e = [(s, e)] from rfl, cover_cons]
      simp only [cover_nil x, or_false, false_or]
    · intro p hp
      rw [show add_cpus [] s e = [(s, e)] from rfl] at hp
      rcases List.mem_cons.mp hp with h | h
      · exact Or.inl (by rw [h])
      · simp at h
  | cons ab rest ih =>
    obtain ⟨a, b⟩ := ab
    intro s e hNorm hse hHi
    obtain ⟨hab, hbrest, hNrest⟩ := hNorm
    have has : a ≤ s := hHi (a, b) (by simp)
    have hHirest : ∀ p ∈ rest, p.1 ≤ s := fun p hp => hHi p (by simp [hp])
    by_cases h1 : b + 1 < s
    · have hunf : add_cpus ((a, b) :: rest) s e = (a, b) :: add_cpus rest s e := by
        simp [add_cpus, h1]
      obtain ⟨N', C', S'⟩ := ih s e hNrest hse hHirest
      rw [hunf]
      refine ⟨⟨hab, ?_, N'⟩, ?_, ?_⟩
      · intro p hp
        rcases S' p hp with h | ⟨q, hq, hpq⟩
        · omega
        · have := hbrest q hq
          omega
      · intro x
        rw [cover_cons, C' x, cover_cons, or_assoc]
      · intro p hp
        rcases List.mem_cons.mp hp with h | h
        · exact Or.inr ⟨(a, b), by simp, by rw [h]⟩
        · rcases S' p h with hh | ⟨q, hq, hpq⟩
          · exact Or.inl hh
          · exact Or.inr ⟨q, by simp [hq], hpq⟩
    · have hsb : s ≤ b + 1 := by omega
      by_cases h2 : e > a
      · have hsa : ¬ s < a := by omega
        have hunf : add_cpus ((a, b) :: rest) s e =
            (a, if (absorb e b rest).1 < e then e else (absorb e b rest).1) ::
              (absorb e b rest).2 := by
          simp [add_cpus, h1, h2, hsb, hsa]
        obtain ⟨N', C', Sub⟩ := absorb_spec s e hse rest a b hab hbrest hNrest has hsb
        rw [hunf]
        refine ⟨N', C', ?_⟩
        intro p hp
        rcases List.mem_cons.mp hp with h | h
        · exact Or.inr ⟨(a, b), by simp, by rw [h]⟩
        · exact Or.inr ⟨p, by simp [Sub p h], rfl⟩
      · by_cases h3 : e ≥ a - 1
        · have hunf : add_cpus ((a, b) :: rest) s e = (s, b) :: rest := by
            have hcond : ¬(e > a ∧ s ≤ b + 1) := by omega
            simp [add_cpus, h1, hcond, h3]
          rw [hunf]
          refine ⟨⟨by omega, hbrest, hNrest⟩, ?_, ?_⟩
          · intro x
            rw [cover_cons, cover_cons]
            constructor
            · rintro (⟨hx1, hx2⟩ | hr)
              · by_cases hxa : a ≤ x
                · exact Or.inl (Or.inl ⟨hxa, hx2⟩)
                · exact Or.inr ⟨hx1, by omega⟩
              · exact Or.inl (Or.inr hr)
            · rintro ((⟨hx1, hx2⟩ | hr) | ⟨hx1, hx2⟩)
              · exact Or.inl ⟨by omega, hx2⟩
              · exact Or.inr hr
              · exact Or.inl ⟨hx1, by omega⟩
          · intro p hp
            rcases List.mem_cons.mp hp with h | h
            · exact Or.inl (by rw [h])
            · exact Or.inr ⟨p, by simp [h], rfl⟩
        · exfalso
          omega

theorem addAll_go : ∀ (l acc : List CpuI), NormL acc →
    (∀ p ∈ l, p.1 ≤ p.2) →
    List.Pairwise (fun p q : CpuI => p.1 ≤ q.1) l →
    (∀ p ∈ acc, ∀ q ∈ l, p.1 ≤ q.1) →
    NormL (l.foldl (fun acc p => add_cpus acc p.1 p.2) acc) ∧
    (∀ x, cover (l.foldl (fun acc p => add_cpus acc p.1 p.2) acc) x ↔
      cover acc x ∨ cover l x) := by
  intro l
  induction l with
  | nil =>
    intro acc hN _ _ _
    refine ⟨hN, fun x => ?_⟩
    simp [cover_nil x]
  | cons se t ih =>
    obtain ⟨s, e⟩ := se
    intro acc hN hval hsort hcond
    have hse : s ≤ e := hval (s, e) (by simp)
    have hHi : ∀ p ∈ acc, p.1 ≤ s := fun p hp => hcond p hp (s, e) (by simp)
    obtain ⟨N1, C1, S1⟩ := add_spec acc s e hN hse hHi
    have hsorthead : ∀ q ∈ t, s ≤ q.1 := fun q hq =>
      (List.pairwise_cons.mp hsort).1 q hq
    have hcond' : ∀ p ∈ add_cpus acc s e, ∀ q ∈ t, p.1 ≤ q.1 := by
      intro p hp q hq
      rcases S1 p hp with h | ⟨r, hr, hpr⟩
      · rw [h]
        exact hsorthead q hq
      · rw [hpr]
        exact hcond r hr q (by simp [hq])
    obtain ⟨N2, C2⟩ := ih (add_cpus acc s e) N1
      (fun p hp => hval p (by simp [hp])) (List.pairwise_cons.mp hsort).2 hcond'
    refine ⟨N2, fun x => ?_⟩
    rw [List.foldl_cons] at *
    rw [C2 x, C1 x, cover_cons, or_assoc]

/-- `addAll` on a start-sorted list of valid intervals produces a normalized
list covering exactly the union of the inputs. -/
theorem addAll_spec (l : List CpuI) (hval : ∀ p ∈ l, p.1 ≤ p.2)
    (hsort : List.Pairwise (fun p q : CpuI => p.1 ≤ q.1) l) :
    NormL (addAll l) ∧ ∀ x, cover (addAll l) x ↔ cover l x := by
  unfold addAll
  obtain ⟨hN, hC⟩ := addAll_go l [] trivial hval hsort (by simp)
  refine ⟨hN, fun x => ?_⟩
  rw [hC x]
  simp [cover_nil x]

theorem norm_head_end_le (a b : Int) (t₁ : List CpuI) (c d : Int) (t₂ : List CpuI)
    (hN₁ : NormL ((a, b) :: t₁)) (hN₂ : NormL ((c, d) :: t₂))
    (hsub : ∀ x, cover ((a, b) :: t₁) x → cover ((c, d) :: t₂) x)
    (hac : a = c) : b ≤ d := by
  obtain ⟨hab, hbt₁, _⟩ := hN₁
  obtain ⟨hcd, hdt₂, _⟩ := hN₂
  by_contra hbd
  have hcovered : cover ((a, b) :: t₁) (d + 1) := ⟨(a, b), by simp, by omega, by omega⟩
  obtain ⟨p, hp, h1, h2⟩ := hsub (d + 1) hcovered
  rcases List.mem_cons.mp hp with h | h
  · subst h
    dsimp at h1 h2
    omega
  · have := hdt₂ p h
    omega

theorem norm_unique : ∀ (l₁ l₂ : List CpuI), NormL l₁ → NormL l₂ →
    (∀ x, cover l₁ x ↔ cover l₂ x) → l₁ = l₂ := by
  intro l₁
  induction l₁ with
  | nil =>
    intro l₂ _ hN₂ hiff
    cases l₂ with
    | nil => rfl
    | cons cd t₂ =>
      obtain ⟨c, d⟩ := cd
      obtain ⟨hcd, _, _⟩ := hN₂
      have : cover [] c := (hiff c).mpr ⟨(c, d), by simp, le_rfl, hcd⟩
      exact absurd this (cover_nil c)
  | cons ab t₁ ih =>
    obtain ⟨a, b⟩ := ab
    intro l₂ hN₁ hN₂ hiff
    cases l₂ with
    | nil =>
      obtain ⟨hab, _, _⟩ := hN₁
      have : cover [] a := (hiff a).mp ⟨(a, b), by simp, le_rfl, hab⟩
      exact absurd this (cover_nil a)
    | cons cd t₂ =>
      obtain ⟨c, d⟩ := cd
      obtain ⟨hab, hbt₁, hNt₁⟩ := hN₁
      obtain ⟨hcd, hdt₂, hNt₂⟩ := hN₂
      have hmin₁ : ∀ x, cover ((a, b) :: t₁) x → a ≤ x := by
        rintro x ⟨p, hp, h1, h2⟩
        rcases List.mem_cons.mp hp with h | h
        · subst h
          dsimp at h1
          omega
        · have := hbt₁ p h
          omega
      have hmin₂ : ∀ x, cover ((c, d) :: t₂) x → c ≤ x := by
        rintro x ⟨p, hp, h1, h2⟩
        rcases List.mem_cons.mp hp with h | h
        · subst h
          dsimp at h1
          omega
        · have := hdt₂ p h
          omega
      have hac : a = c := by
        have h1 : c ≤ a := hmin₂ a ((hiff a).mp ⟨(a, b), by simp, le_rfl, hab⟩)
        have h2 : a ≤ c := hmin₁ c ((hiff c).mpr ⟨(c, d), by simp, le_rfl, hcd⟩)
        omega
      have hbd : b = d := by
        have h1 : b ≤ d := norm_head_end_le a b t₁ c d t₂ ⟨hab, hbt₁, hNt₁⟩
          ⟨hcd, hdt₂, hNt₂⟩ (fun x => (hiff x).mp) hac
        have h2 : d ≤ b := norm_head_end_le c d t₂ a b t₁ ⟨hcd, hdt₂, hNt₂⟩
          ⟨hab, hbt₁, hNt₁⟩ (fun x => (hiff x).mpr) hac.symm
        omega
      have htail : ∀ x, cover t₁ x ↔ cover t₂ x := by
        intro x
        constructor
        · intro hx
          obtain ⟨p, hp, h1, h2⟩ := hx
          have hxb : b + 1 < x := by
            have := hbt₁ p hp
            omega
          have := (hiff x).mp ((cover_cons a b t₁ x).mpr (Or.inr ⟨p, hp, h1, h2⟩))
          rcases (cover_cons c d t₂ x).mp this with ⟨_, hh⟩ | hh
          · omega
          · exact hh
        · intro hx
          obtain ⟨p, hp, h1, h2⟩ := hx
          have hxd : d + 1 < x := by
            have := hdt₂ p hp
            omega
          have := (hiff x).mpr ((cover_cons c d t₂ x).mpr (Or.inr ⟨p, hp, h1, h2⟩))
          rcases (cover_cons a b t₁ x).mp this with ⟨_, hh⟩ | hh
          · omega
          · exact hh
      rw [hac, hbd, ih t₂ hNt₁ hNt₂ htail]

/-- Counterexample to claim C1: the two insertion orders `[(5,5),(0,0)]` and
`[(0,0),(5,5)]` of the same multiset of valid intervals produce different
lists — `add_cpus` links an entirely-smaller interval *after* the node it
stopped at, so order matters. -/
theorem C1_counterexample :
    [((5 : Int), (5 : Int)), (0, 0)].Perm [((0 : Int), (0 : Int)), (5, 5)] ∧
    (∀ p ∈ [((5 : Int), (5 : Int)), (0, 0)], 0 ≤ p.1 ∧ p.1 ≤ p.2) ∧
    addAll [((5 : Int), (5 : Int)), (0, 0)] ≠ addAll [((0 : Int), (0 : Int)), (5, 5)] :=
  ⟨List.Perm.swap (0, 0) (5, 5) [], by decide, by decide⟩

/-- Claim C1 (amended): insertion order does not matter *among
start-sorted orders*: any two start-sorted arrangements of the same multiset
of valid intervals produce the same merged list under `add_cpus` (general
orders can differ, see the counterexample). -/
theorem C1_sorted_insertion_order_indep (l₁ l₂ : List CpuI)
    (hval : ∀ p ∈ l₁, 0 ≤ p.1 ∧ p.1 ≤ p.2)
    (hperm : l₁.Perm l₂)
    (hs₁ : List.Pairwise (fun p q : CpuI => p.1 ≤ q.1) l₁)
    (hs₂ : List.Pairwise (fun p q : CpuI => p.1 ≤ q.1) l₂) :
    addAll l₁ = addAll l₂ := by
  have hval₁ : ∀ p ∈ l₁, p.1 ≤ p.2 := fun p hp => (hval p hp).2
  have hval₂ : ∀ p ∈ l₂, p.1 ≤ p.2 := fun p hp => (hval p (hperm.mem_iff.mpr hp)).2
  obtain ⟨N1, C1⟩ := addAll_spec l₁ hval₁ hs₁
  obtain ⟨N2, C2⟩ := addAll_spec l₂ hval₂ hs₂
  refine norm_unique _ _ N1 N2 (fun x => ?_)
  rw [C1 x, C2 x]
  constructor
  · rintro ⟨p, hp, hx⟩
    exact ⟨p, hperm.mem_iff.mp hp, hx⟩
  · rintro ⟨p, hp, hx⟩
    exact ⟨p, hperm.mem_iff.mpr hp, hx⟩

/-- Witness for the amended C1: two sorted arrangements of
`{(0,0), (2,4), (2,5)}` (tied starts swapped) merge identically. -/
theorem C1_sorted_insertion_order_indep_witness :
    (∀ p ∈ [((0 : Int), (0 : Int)), (2, 4), (2, 5)], 0 ≤ p.1 ∧ p.1 ≤ p.2) ∧
    [((0 : Int), (0 : Int)), (2, 4), (2, 5)].Perm [((0 : Int), (0 : Int)), (2, 5), (2, 4)] ∧
    addAll [((0 : Int), (0 : Int)), (2, 4), (2, 5)] =
      addAll [((0 : Int), (0 : Int)), (2, 5), (2, 4)] :=
  ⟨by decide, List.Perm.cons (0, 0) (List.Perm.swap (2, 5) (2, 4) []),
    C1_sorted_insertion_order_indep _ _ (by decide)
      (List.Perm.cons (0, 0) (List.Perm.swap (2, 5) (2, 4) []))
      (by decide) (by decide)⟩

/-! ## Claim C6: malformed tokens and `calc_nr_cpus` -/

theorem char_toNat_inj {c d : Char} (h : c.toNat = d.toNat) : c = d :=
  Char.ext (UInt32.ext h)

theorem isDigitC_iff (c : Char) : isDigitC c = true ↔ 48 ≤ c.toNat ∧ c.toNat ≤ 57 := by
  simp [isDigitC]

theorem not_space_of_digit (c : Char) (h : isDigitC c = true) : isSpaceC c = false := by
  rw [isDigitC_iff] at h
  simp [isSpaceC]
  omega

theorem atoi_nil : atoi [] = 0 := rfl

theorem atoi_dash (t : List Char) : atoi ('-' :: t) = -(digitsVal t : Int) := by
  unfold atoi
  rw [List.dropWhile_cons, if_neg (by decide)]
  rfl

theorem atoi_not_sign (c : Char) (t : List Char) (hs : isSpaceC c = false)
    (h1 : c ≠ '-') (h2 : c ≠ '+') : atoi (c :: t) = (digitsVal (c :: t) : Int) := by
  unfold atoi
  rw [List.dropWhile_cons, if_neg (by rw [hs]; simp)]
  split
  · rename_i r heq
    cases heq
    exact absurd rfl h1
  · rename_i r heq
    cases heq
    exact absurd rfl h2
  · rfl

theorem atoi_digit_head (c : Char) (t : List Char) (hc : isDigitC c = true) :
    atoi (c :: t) = (digitsVal (c :: t) : Int) := by
  refine atoi_not_sign c t (not_space_of_digit c hc) ?_ ?_
  · intro he
    subst he
    exact absurd hc (by decide)
  · intro he
    subst he
    exact absurd hc (by decide)

theorem atoi_comma (t : List Char) : atoi (',' :: t) = 0 := by
  rw [atoi_not_sign ',' t (by decide) (by decide) (by decide)]
  unfold digitsVal
  rw [List.takeWhile_cons, if_neg (by decide)]
  rfl

theorem foldl_digits_ge_one : ∀ (l : List Char) (acc : Nat), 1 ≤ acc →
    1 ≤ l.foldl (fun a c => a * 10 + (c.toNat - 48)) acc := by
  intro l
  induction l with
  | nil => intro acc h; simpa using h
  | cons c t ih =>
    intro acc h
    rw [List.foldl_cons]
    exact ih _ (by omega)

theorem digitsVal_pos (c : Char) (t : List Char) (hc : isDigitC c = true) (h0 : c ≠ '0') :
    0 < digitsVal (c :: t) := by
  unfold digitsVal
  rw [List.takeWhile_cons, if_pos hc, List.foldl_cons]
  obtain ⟨h48, h57⟩ := (isDigitC_iff c).mp hc
  have hne : c.toNat ≠ 48 := by
    intro h
    exact h0 (char_toNat_inj (h.trans (by decide)))
  exact lt_of_lt_of_le Nat.zero_lt_one (foldl_digits_ge_one _ _ (by omega))

theorem digitsVal_not_digit (c : Char) (t : List Char) (hc : isDigitC c = false) :
    digitsVal (c :: t) = 0 := by
  unfold digitsVal
  rw [List.takeWhile_cons, if_neg (by rw [hc]; simp)]
  rfl

theorem takeWhile_all_eq (p : Char → Bool) : ∀ (l : List Char), (∀ x ∈ l, p x = true) →
    l.takeWhile p = l := by
  intro l
  induction l with
  | nil => intro _; rfl
  | cons a t ih =>
    intro h
    rw [List.takeWhile_cons, if_pos (h a (by simp))]
    rw [ih (fun x hx => h x (by simp [hx]))]

theorem digitsVal_takeWhile (l : List Char) :
    digitsVal (l.takeWhile isDigitC) = digitsVal l := by
  unfold digitsVal
  rw [takeWhile_all_eq isDigitC (l.takeWhile isDigitC)
    (fun x hx => List.mem_takeWhile_imp hx)]

theorem takeWhile_append_not (p : Char → Bool) :
    ∀ (l : List Char) (c : Char) (r : List Char), (∀ x ∈ l, p x = true) → p c = false →
    (l ++ c :: r).takeWhile p = l := by
  intro l
  induction l with
  | nil =>
    intro c r _ hc
    rw [List.nil_append, List.takeWhile_cons, if_neg (by rw [hc]; simp)]
  | cons a t ih =>
    intro c r h hc
    rw [List.cons_append, List.takeWhile_cons, if_pos (h a (by simp))]
    rw [ih c r (fun x hx => h x (by simp [hx])) hc]

theorem head_dropWhile_not (p : Char → Bool) :
    ∀ (l : List Char) (c : Char) (r : List Char), l.dropWhile p = c :: r → p c = false := by
  intro l
  induction l with
  | nil => intro c r h; simp at h
  | cons a t ih =>
    intro c r h
    rw [List.dropWhile_cons] at h
    by_cases ha : p a = true
    · rw [if_pos ha] at h
      exact ih c r h
    · rw [if_neg ha] at h
      cases h
      simpa using ha

theorem tokSplit_ne_nil : ∀ (l : List Char), tokSplit l ≠ [] := by
  intro l
  induction l with
  | nil => simp [tokSplit]
  | cons c t ih =>
    by_cases hc : c = ','
    · simp [tokSplit, hc]
    · rw [show tokSplit (c :: t) = if c = ',' then [] :: tokSplit t else
        (match tokSplit t with | [] => [[c]] | h :: r => (c :: h) :: r) from rfl]
      rw [if_neg hc]
      split
      · simp
      · simp

theorem tokSplit_cons_ne (c : Char) (t : List Char) (hc : ¬ c = ',') :
    ∀ h r, tokSplit t = h :: r → tokSplit (c :: t) = (c :: h) :: r := by
  intro h r heq
  rw [show tokSplit (c :: t) = if c = ',' then [] :: tokSplit t else
    (match tokSplit t with | [] => [[c]] | h :: r => (c :: h) :: r) from rfl]
  rw [if_neg hc, heq]

theorem tokSplit_comma_free : ∀ (l : List Char), (∀ c ∈ l, ¬ c = ',') →
    tokSplit l = [l] := by
  intro l
  induction l with
  | nil => intro _; rfl
  | cons c t ih =>
    intro h
    rw [tokSplit_cons_ne c t (h c (by simp)) t [] (ih (fun x hx => h x (by simp [hx])))]

theorem tokSplit_append_comma : ∀ (l : List Char) (r : List Char), (∀ c ∈ l, ¬ c = ',') →
    tokSplit (l ++ ',' :: r) = l :: tokSplit r := by
  intro l
  induction l with
  | nil =>
    intro r _
    rw [List.nil_append]
    simp [tokSplit]
  | cons c t ih =>
    intro r h
    rw [List.cons_append]
    obtain ⟨h1, r1, heq⟩ : ∃ h1 r1, tokSplit (t ++ ',' :: r) = h1 :: r1 := by
      rcases he : tokSplit (t ++ ',' :: r) with _ | ⟨h1, r1⟩
      · exact absurd he (tokSplit_ne_nil _)
      · exact ⟨h1, r1, rfl⟩
    rw [tokSplit_cons_ne c _ (h c (by simp)) h1 r1 heq]
    rw [ih r (fun x hx => h x (by simp [hx]))] at heq
    cases heq
    rfl

theorem digit_ne_comma (c : Char) (h : isDigitC c = true) : ¬ c = ',' := by
  intro he
  subst he
  exact absurd h (by decide)

theorem calcLoop_err_head (f : Nat) (c : Char) (t : List Char) (acc : List CpuI)
    (h : atoi (c :: t) < 0 ∨ (atoi (c :: t) = 0 ∧ c ≠ '0')) :
    calcLoop (f + 1) (c :: t) acc = some none := by
  simp only [calcLoop]
  rw [if_pos h]

theorem calcLoop_dash (f : Nat) (t : List Char) (acc : List CpuI) (hf : 0 < f) :
    calcLoop f ('-' :: t) acc = some none := by
  obtain ⟨f', rfl⟩ : ∃ f', f = f' + 1 := ⟨f - 1, by omega⟩
  apply calcLoop_err_head
  rw [atoi_dash]
  by_cases h : digitsVal t = 0
  · rw [h]
    exact Or.inr ⟨by simp, by decide⟩
  · exact Or.inl (by omega)

theorem calcLoop_comma_lead (f : Nat) (t : List Char) (acc : List CpuI) (hf : 0 < f) :
    calcLoop f (',' :: t) acc = some none := by
  obtain ⟨f', rfl⟩ : ∃ f', f = f' + 1 := ⟨f - 1, by omega⟩
  apply calcLoop_err_head
  rw [atoi_comma]
  exact Or.inr ⟨rfl, by decide⟩

theorem calcLoop_comma_step (f : Nat) (c : Char) (t : List Char) (acc : List CpuI)
    (hok : ¬(atoi (c :: t) < 0 ∨ (atoi (c :: t) = 0 ∧ c ≠ '0')))
    (r : List Char)
    (hdrop : (c :: t).dropWhile isDigitC = ',' :: r) :
    calcLoop (f + 1) (c :: t) acc =
      calcLoop f r (add_cpus acc (atoi (c :: t)) (atoi (c :: t))) := by
  simp only [calcLoop]
  rw [if_neg hok, hdrop]
  simp

theorem calcLoop_dash_err (f : Nat) (c : Char) (t : List Char) (acc : List CpuI)
    (hok : ¬(atoi (c :: t) < 0 ∨ (atoi (c :: t) = 0 ∧ c ≠ '0')))
    (p2 : List Char)
    (hdrop : (c :: t).dropWhile isDigitC = '-' :: p2)
    (herr : atoi p2 < atoi (c :: t) ∨ (atoi p2 = 0 ∧ p2.head? ≠ some '0')) :
    calcLoop (f + 1) (c :: t) acc = some none := by
  simp only [calcLoop]
  rw [if_neg hok, hdrop]
  simp only [List.head?_cons, List.tail_cons]
  rw [if_pos trivial, if_pos herr]

theorem calcLoop_dash_step (f : Nat) (c : Char) (t : List Char) (acc : List CpuI)
    (hok : ¬(atoi (c :: t) < 0 ∨ (atoi (c :: t) = 0 ∧ c ≠ '0')))
    (p2 : List Char)
    (hdrop : (c :: t).dropWhile isDigitC = '-' :: p2)
    (hnoterr : ¬(atoi p2 < atoi (c :: t) ∨ (atoi p2 = 0 ∧ p2.head? ≠ some '0'))) :
    calcLoop (f + 1) (c :: t) acc =
      calcLoop f
        (if (p2.dropWhile isDigitC).head? = some ',' then (p2.dropWhile isDigitC).tail
         else p2.dropWhile isDigitC)
        (add_cpus acc (atoi (c :: t)) (atoi p2)) := by
  simp only [calcLoop]
  rw [if_neg hok, hdrop]
  simp only [List.head?_cons, List.tail_cons]
  rw [if_pos trivial, if_neg hnoterr]

theorem validTok_digits (tk : List Char) (hne : tk ≠ [])
    (hall : ∀ x ∈ tk, isDigitC x = true) : validTok tk = true := by
  simp only [validTok]
  rw [takeWhile_all_eq isDigitC tk hall, List.drop_length]
  simp [hne]

theorem validTok_range (a m : List Char) (hane : a ≠ [])
    (halla : ∀ x ∈ a, isDigitC x = true)
    (hmne : m ≠ []) (hallm : ∀ x ∈ m, isDigitC x = true)
    (hle : digitsVal a ≤ digitsVal m) :
    validTok (a ++ '-' :: m) = true := by
  simp only [validTok]
  rw [takeWhile_append_not isDigitC a '-' m halla (by decide), List.drop_left]
  simp only [List.head?_cons, List.tail_cons]
  simp [hane, hmne, hle, List.all_eq_true.mpr hallm]

theorem calcLoop_malformed : ∀ (n : Nat), ∀ (cs : List Char), cs.length ≤ n →
    ∀ (fuel : Nat) (acc : List CpuI), cs.length < fuel →
    (∀ c ∈ cs, isDigitC c = true ∨ c = '-' ∨ c = ',') →
    (∀ t ∈ tokSplit cs, t ≠ []) →
    (∃ t ∈ tokSplit cs, validTok t = false) →
    calcLoop fuel cs acc = some none := by
  intro n
  induction n with
  | zero =>
    intro cs hlen fuel acc _ _ hnetok _
    have hnil : cs = [] := List.length_eq_zero.mp (by omega)
    subst hnil
    exact absurd rfl (hnetok [] (by simp [tokSplit]))
  | succ n ih =>
    intro cs hlen fuel acc hfuel halpha hnetok hbad
    cases cs with
    | nil => exact absurd rfl (hnetok [] (by simp [tokSplit]))
    | cons c t =>
      obtain ⟨f, rfl⟩ : ∃ f, fuel = f + 1 := ⟨fuel - 1, by omega⟩
      have hlen1 : (c :: t).length = t.length + 1 := by simp
      rcases halpha c (by simp) with hcd | hcdash | hccomma
      · -- leading digit
        have hcpu : atoi (c :: t) = (digitsVal (c :: t) : Int) := atoi_digit_head c t hcd
        have hok : ¬(atoi (c :: t) < 0 ∨ (atoi (c :: t) = 0 ∧ c ≠ '0')) := by
          rw [hcpu]
          rintro (h | ⟨h0, hne0⟩)
          · omega
          · have hz : digitsVal (c :: t) = 0 := by exact_mod_cast h0
            exact absurd (digitsVal_pos c t hcd hne0) (by omega)
        have hcat := List.takeWhile_append_dropWhile isDigitC (c :: t)
        have hAne : (c :: t).takeWhile isDigitC ≠ [] := by
          rw [List.takeWhile_cons, if_pos hcd]
          simp
        have hAdig : ∀ x ∈ (c :: t).takeWhile isDigitC, isDigitC x = true :=
          fun x hx => List.mem_takeWhile_imp hx
        have hAcomma : ∀ x ∈ (c :: t).takeWhile isDigitC, ¬ x = ',' :=
          fun x hx => digit_ne_comma x (hAdig x hx)
        rcases hp1 : (c :: t).dropWhile isDigitC with _ | ⟨c1, r1⟩
        · -- whole input is one digit-only token: it is valid, contradiction
          rw [hp1, List.append_nil] at hcat
          have halldig : ∀ x ∈ c :: t, isDigitC x = true := by
            intro x hx
            rw [← hcat] at hx
            exact List.mem_takeWhile_imp hx
          have htok : tokSplit (c :: t) = [c :: t] :=
            tokSplit_comma_free _ (fun x hx => digit_ne_comma x (halldig x hx))
          obtain ⟨tk, htk, hbadtk⟩ := hbad
          rw [htok] at htk
          simp at htk
          subst htk
          rw [validTok_digits (c :: t) (by simp) halldig] at hbadtk
          simp at hbadtk
        · have hc1 : isDigitC c1 = false := head_dropWhile_not isDigitC (c :: t) c1 r1 hp1
          have hdecomp : (c :: t).takeWhile isDigitC ++ c1 :: r1 = c :: t := by
            rw [← hp1]
            exact hcat
          have hc1mem : c1 ∈ c :: t := by
            rw [← hdecomp]
            exact List.mem_append_right _ (by simp)
          rcases halpha c1 hc1mem with h | h | h
          · rw [h] at hc1
            simp at hc1
          · -- a range: "digits-..."
            subst h
            rcases hr1 : r1 with _ | ⟨c2, r2⟩
            · -- nothing after the '-': error (end = 0, *p != '0')
              subst hr1
              refine calcLoop_dash_err f c t acc hok [] hp1 (Or.inr ⟨atoi_nil, by simp⟩)
            · subst hr1
              have hc2mem : c2 ∈ c :: t := by
                rw [← hdecomp]
                exact List.mem_append_right _ (by simp)
              rcases halpha c2 hc2mem with hc2d | hc2dash | hc2comma
              · -- digits after the '-'
                have hendv : atoi (c2 :: r2) = (digitsVal (c2 :: r2) : Int) :=
                  atoi_digit_head c2 r2 hc2d
                by_cases herr : atoi (c2 :: r2) < atoi (c :: t)
                · exact calcLoop_dash_err f c t acc hok (c2 :: r2) hp1 (Or.inl herr)
                · have hnoterr : ¬(atoi (c2 :: r2) < atoi (c :: t) ∨
                      (atoi (c2 :: r2) = 0 ∧ (c2 :: r2).head? ≠ some '0')) := by
                    rintro (h | ⟨h0, hh⟩)
                    · exact herr h
                    · rw [hendv] at h0
                      have hz : digitsVal (c2 :: r2) = 0 := by exact_mod_cast h0
                      by_cases hc20 : c2 = '0'
                      · subst hc20
                        simp at hh
                      · exact absurd (digitsVal_pos c2 r2 hc2d hc20) (by omega)
                  rw [calcLoop_dash_step f c t acc hok (c2 :: r2) hp1 hnoterr]
                  have hcat2 := List.takeWhile_append_dropWhile isDigitC (c2 :: r2)
                  have hMne : (c2 :: r2).takeWhile isDigitC ≠ [] := by
                    rw [List.takeWhile_cons, if_pos hc2d]
                    simp
                  have hMdig : ∀ x ∈ (c2 :: r2).takeWhile isDigitC, isDigitC x = true :=
                    fun x hx => List.mem_takeWhile_imp hx
                  have hle : digitsVal ((c :: t).takeWhile isDigitC) ≤
                      digitsVal ((c2 :: r2).takeWhile isDigitC) := by
                    rw [digitsVal_takeWhile, digitsVal_takeWhile]
                    rw [hendv, hcpu] at herr
                    omega
                  rcases hp3 : (c2 :: r2).dropWhile isDigitC with _ | ⟨c3, r3⟩
                  · -- the whole input is one valid "N-M" token: contradiction
                    rw [hp3, List.append_nil] at hcat2
                    have hM2dig : ∀ x ∈ c2 :: r2, isDigitC x = true := by
                      intro x hx
                      rw [← hcat2] at hx
                      exact List.mem_takeWhile_imp hx
                    have hfree : ∀ x ∈ c :: t, ¬ x = ',' := by
                      intro x hx
                      rw [← hdecomp] at hx
                      rcases List.mem_append.mp hx with hx | hx
                      · exact hAcomma x hx
                      · rcases List.mem_cons.mp hx with hx | hx
                        · subst hx; decide
                        · exact digit_ne_comma x (hM2dig x hx)
                    have htok : tokSplit (c :: t) = [c :: t] := tokSplit_comma_free _ hfree
                    obtain ⟨tk, htk, hbadtk⟩ := hbad
                    rw [htok] at htk
                    simp at htk
                    subst htk
                    have hval : validTok (c :: t) = true := by
                      rw [← hdecomp]
                      refine validTok_range _ _ hAne hAdig (by simp) hM2dig ?_
                      rw [show digitsVal (c2 :: r2) =
                        digitsVal ((c2 :: r2).takeWhile isDigitC) from
                          (digitsVal_takeWhile (c2 :: r2)).symm]
                      exact hle.trans_eq (by rw [hcat2])
                    rw [hval] at hbadtk
                    simp at hbadtk
                  · have hc3 : isDigitC c3 = false :=
                      head_dropWhile_not isDigitC (c2 :: r2) c3 r3 hp3
                    have hdecomp2 : (c2 :: r2).takeWhile isDigitC ++ c3 :: r3 = c2 :: r2 := by
                      rw [← hp3]
                      exact hcat2
                    have hc3mem : c3 ∈ c :: t := by
                      rw [← hdecomp]
                      refine List.mem_append_right _ ?_
                      refine List.mem_cons_of_mem _ ?_
                      rw [← hdecomp2]
                      exact List.mem_append_right _ (by simp)
                    rcases halpha c3 hc3mem with h | h | h
                    · rw [h] at hc3
                      simp at hc3
                    · -- another '-': the next iteration errors out
                      subst h
                      rw [show (if (('-' :: r3 : List Char)).head? = some ',' then
                          ('-' :: r3 : List Char).tail else '-' :: r3) = '-' :: r3 from by simp]
                      refine calcLoop_dash f r3 _ ?_
                      have hlc : (c :: t).length = ((c :: t).takeWhile isDigitC).length +
                          (c2 :: r2).length + 1 := by
                        conv_lhs => rw [← hdecomp]
                        simp
                        omega
                      omega
                    · -- ',' after the "N-M" token: the token is valid, recurse
                      subst h
                      rw [show (if ((',' :: r3 : List Char)).head? = some ',' then
                          (',' :: r3 : List Char).tail else ',' :: r3) = r3 from by simp]
                      have hsplit : c :: t =
                          ((c :: t).takeWhile isDigitC ++ '-' ::
                            (c2 :: r2).takeWhile isDigitC) ++ ',' :: r3 := by
                        calc c :: t = (c :: t).takeWhile isDigitC ++ '-' :: (c2 :: r2) :=
                              hdecomp.symm
                          _ = (c :: t).takeWhile isDigitC ++ '-' ::
                                ((c2 :: r2).takeWhile isDigitC ++ ',' :: r3) :=
                              congrArg (fun z => (c :: t).takeWhile isDigitC ++ '-' :: z)
                                hdecomp2.symm
                          _ = ((c :: t).takeWhile isDigitC ++ '-' ::
                                (c2 :: r2).takeWhile isDigitC) ++ ',' :: r3 := by
                              simp
                      have hfree : ∀ x ∈ (c :: t).takeWhile isDigitC ++ '-' ::
                          (c2 :: r2).takeWhile isDigitC, ¬ x = ',' := by
                        intro x hx
                        rcases List.mem_append.mp hx with hx | hx
                        · exact hAcomma x hx
                        · rcases List.mem_cons.mp hx with hx | hx
                          · subst hx; decide
                          · exact digit_ne_comma x (hMdig x hx)
                      have htoks : tokSplit (c :: t) =
                          ((c :: t).takeWhile isDigitC ++ '-' ::
                            (c2 :: r2).takeWhile isDigitC) :: tokSplit r3 := by
                        conv_lhs => rw [hsplit]
                        exact tokSplit_append_comma _ r3 hfree
                      have hvaltok : validTok ((c :: t).takeWhile isDigitC ++ '-' ::
                          (c2 :: r2).takeWhile isDigitC) = true :=
                        validTok_range _ _ hAne hAdig hMne hMdig hle
                      have hlensum : (c :: t).length =
                          ((c :: t).takeWhile isDigitC).length + 1 +
                          (((c2 :: r2).takeWhile isDigitC).length + 1 + r3.length) := by
                        conv_lhs => rw [hsplit]
                        simp
                        omega
                      have hAlen : 1 ≤ ((c :: t).takeWhile isDigitC).length := by
                        rcases he : (c :: t).takeWhile isDigitC with _ | _
                        · exact absurd he hAne
                        · simp
                      refine ih r3 (by omega) f _ (by omega) ?_ ?_ ?_
                      · intro x hx
                        refine halpha x ?_
                        rw [hsplit]
                        exact List.mem_append_right _ (by simp [hx])
                      · intro tk htk
                        refine hnetok tk ?_
                        rw [htoks]
                        exact List.mem_cons_of_mem _ htk
                      · obtain ⟨tk, htk, hbadtk⟩ := hbad
                        rw [htoks] at htk
                        rcases List.mem_cons.mp htk with hh | hh
                        · subst hh
                          rw [hvaltok] at hbadtk
                          simp at hbadtk
                        · exact ⟨tk, hh, hbadtk⟩
              · -- '-' right after the '-': error
                subst hc2dash
                refine calcLoop_dash_err f c t acc hok ('-' :: r2) hp1 ?_
                rw [atoi_dash, hcpu]
                by_cases hz : digitsVal r2 = 0
                · rw [hz]
                  exact Or.inr ⟨by simp, by simp⟩
                · exact Or.inl (by omega)
              · -- ',' right after the '-': error
                subst hc2comma
                refine calcLoop_dash_err f c t acc hok (',' :: r2) hp1 ?_
                rw [atoi_comma, hcpu]
                by_cases hz : digitsVal (c :: t) = 0
                · rw [hz]
                  exact Or.inr ⟨rfl, by simp⟩
                · exact Or.inl (by omega)
          · -- ',' terminating a digit-only token: the token is valid, recurse
            subst h
            rw [calcLoop_comma_step f c t acc hok r1 hp1]
            have hsplit : c :: t = (c :: t).takeWhile isDigitC ++ ',' :: r1 := hdecomp.symm
            have htoks : tokSplit (c :: t) =
                ((c :: t).takeWhile isDigitC) :: tokSplit r1 := by
              conv_lhs => rw [hsplit]
              exact tokSplit_append_comma _ r1 hAcomma
            have hvaltok : validTok ((c :: t).takeWhile isDigitC) = true :=
              validTok_digits _ hAne hAdig
            have hlensum : (c :: t).length =
                ((c :: t).takeWhile isDigitC).length + 1 + r1.length := by
              conv_lhs => rw [hsplit]
              simp
              omega
            have hAlen : 1 ≤ ((c :: t).takeWhile isDigitC).length := by
              rcases he : (c :: t).takeWhile isDigitC with _ | _
              · exact absurd he hAne
              · simp
            refine ih r1 (by omega) f _ (by omega) ?_ ?_ ?_
            · intro x hx
              refine halpha x ?_
              rw [hsplit]
              exact List.mem_append_right _ (by simp [hx])
            · intro tk htk
              refine hnetok tk ?_
              rw [htoks]
              exact List.mem_cons_of_mem _ htk
            · obtain ⟨tk, htk, hbadtk⟩ := hbad
              rw [htoks] at htk
              rcases List.mem_cons.mp htk with hh | hh
              · subst hh
                rw [hvaltok] at hbadtk
                simp at hbadtk
              · exact ⟨tk, hh, hbadtk⟩
      · -- leading '-': error
        subst hcdash
        exact calcLoop_dash (f + 1) t acc (by omega)
      · -- leading ',': empty first token, excluded by the hypotheses
        subst hccomma
        have : tokSplit (',' :: t) = [] :: tokSplit t := by
          simp [tokSplit]
        exact absurd rfl (hnetok [] (by rw [this]; simp))

/-- Counterexample to claim C6: the expression `"1,"` contains a malformed
(empty) token after the trailing comma, yet `calc_nr_cpus` succeeds and
returns 1, not -1 — the loop consumes `"1"` and the trailing `','` and then
exits on the terminator. -/
theorem C6_counterexample :
    ([] ∈ tokSplit "1,".toList) ∧ validTok [] = false ∧
    calc_nr_cpus 8 3 "1,".toList = some 1 := by
  decide

/-- Claim C6 (amended): for every expression over the digits/`'-'`/`','`
alphabet whose comma-separated tokens are all nonempty, if some token is
malformed (not `N` or `N-M` with `N ≤ M`), then `calc_nr_cpus` returns `-1`.
(Outside this alphabet the C loop can fail to advance and never return —
e.g. on `"1 2"` — and an empty trailing token is accepted, see the
counterexample.) -/
theorem C6_malformed_token (cpuCount : Int) (cs : List Char)
    (halpha : ∀ c ∈ cs, isDigitC c = true ∨ c = '-' ∨ c = ',')
    (hne : ∀ t ∈ tokSplit cs, t ≠ [])
    (hbad : ∃ t ∈ tokSplit cs, validTok t = false) :
    calc_nr_cpus cpuCount (cs.length + 1) cs = some (-1) := by
  unfold calc_nr_cpus
  rw [calcLoop_malformed cs.length cs le_rfl (cs.length + 1) [] (by omega) halpha hne hbad]

/-- Witness for the amended C6 at the spec's example `"3-1"` (range with
end < start). -/
theorem C6_malformed_token_witness :
    (∀ c ∈ "3-1".toList, isDigitC c = true ∨ c = '-' ∨ c = ',') ∧
    (∀ t ∈ tokSplit "3-1".toList, t ≠ []) ∧
    (∃ t ∈ tokSplit "3-1".toList, validTok t = false) ∧
    calc_nr_cpus 8 ("3-1".toList.length + 1) "3-1".toList = some (-1) :=
  ⟨by decide, by decide, by decide,
    C6_malformed_token 8 "3-1".toList (by decide) (by decide) (by decide)⟩

/-! ## Claim C2: the barrier-driven startup protocol

An interleaving transition system for `main` (the coordinator) and the
`run_deadline` workers in the scenario where `sched_getattr` succeeds
everywhere and `sched_setattr` fails for the workers designated by `fails`.
The three uses of the shared `pthread_barrier_t` (after `sched_getattr`,
after preparing the attributes, after `sched_setattr`) are modelled as
rendezvous transitions that fire when all `n + 1` parties have arrived.
Writes to the `shutdown` flag become visible immediately (sequential
consistency, which the barrier synchronization guarantees at the points the
claim is about). -/

/-- Worker program counter through `run_deadline`. -/
inductive WPc
  | start      -- before sched_getattr
  | atA        -- waiting at the first barrier
  | prep       -- filling in the sched_attr fields
  | atB        -- waiting at the second barrier
  | applyAttr  -- about to call sched_setattr
  | atC        -- waiting at the third barrier
  | loopHead   -- at the head of the steady-state while loop
  | done       -- returned or called pthread_exit (joinable)
deriving DecidableEq, Repr

/-- Coordinator program counter through `main` (from the first
`pthread_barrier_wait` on): the two `fatal` calls after the first two
barriers are `aborted1`/`aborted2`; after the third barrier `main` proceeds
straight to `loop()` with no flag check. -/
inductive CPc
  | atA | check1 | atB | check2 | atC | loopStat | join | exitNormal | aborted1 | aborted2
deriving DecidableEq, Repr

/-- Global state: per-worker pcs, coordinator pc, the `shutdown` flag, and
per-worker counts of completed steady-state measurement cycles. -/
structure CState (n : Nat) where
  wpc : Fin n → WPc
  cpc : CPc
  flag : Bool
  cycles : Fin n → Nat

/-- Interleaved small-step relation. -/
inductive Step (n : Nat) (fails : Fin n → Bool) : CState n → CState n → Prop
  | getattr (s s' : CState n) (i : Fin n) :
      s.wpc i = WPc.start →
      s'.wpc = Function.update s.wpc i WPc.atA →
      s'.cpc = s.cpc → s'.flag = s.flag → s'.cycles = s.cycles →
      Step n fails s s'
  | releaseA (s s' : CState n) :
      (∀ i, s.wpc i = WPc.atA) → s.cpc = CPc.atA →
      s'.wpc = (fun _ => WPc.prep) → s'.cpc = CPc.check1 →
      s'.flag = s.flag → s'.cycles = s.cycles →
      Step n fails s s'
  | prepStep (s s' : CState n) (i : Fin n) :
      s.wpc i = WPc.prep →
      s'.wpc = Function.update s.wpc i WPc.atB →
      s'.cpc = s.cpc → s'.flag = s.flag → s'.cycles = s.cycles →
      Step n fails s s'
  | check1Step (s s' : CState n) :
      s.cpc = CPc.check1 →
      s'.cpc = (if s.flag then CPc.aborted1 else CPc.atB) →
      s'.wpc = s.wpc → s'.flag = s.flag → s'.cycles = s.cycles →
      Step n fails s s'
  | releaseB (s s' : CState n) :
      (∀ i, s.wpc i = WPc.atB) → s.cpc = CPc.atB →
      s'.wpc = (fun _ => WPc.applyAttr) → s'.cpc = CPc.check2 →
      s'.flag = s.flag → s'.cycles = s.cycles →
      Step n fails s s'
  | applyStep (s s' : CState n) (i : Fin n) :
      s.wpc i = WPc.applyAttr →
      s'.wpc = Function.update s.wpc i WPc.atC →
      s'.flag = (s.flag || fails i) →
      s'.cpc = s.cpc → s'.cycles = s.cycles →
      Step n fails s s'
  | check2Step (s s' : CState n) :
      s.cpc = CPc.check2 →
      s'.cpc = (if s.flag then CPc.aborted2 else CPc.atC) →
      s'.wpc = s.wpc → s'.flag = s.flag → s'.cycles = s.cycles →
      Step n fails s s'
  | releaseC (s s' : CState n) :
      (∀ i, s.wpc i = WPc.atC) → s.cpc = CPc.atC →
      s'.wpc = (fun i => if fails i then WPc.done else WPc.loopHead) →
      s'.cpc = CPc.loopStat →
      s'.flag = s.flag → s'.cycles = s.cycles →
      Step n fails s s'
  | loopExit (s s' : CState n) (i : Fin n) :
      s.wpc i = WPc.loopHead → s.flag = true →
      s'.wpc = Function.update s.wpc i WPc.done →
      s'.cpc = s.cpc → s'.flag = s.flag → s'.cycles = s.cycles →
      Step n fails s s'
  | cycleStep (s s' : CState n) (i : Fin n) :
      s.wpc i = WPc.loopHead → s.flag = false →
      s'.cycles = Function.update s.cycles i (s.cycles i + 1) →
      s'.wpc = s.wpc → s'.cpc = s.cpc → s'.flag = s.flag →
      Step n fails s s'
  | coordExitLoop (s s' : CState n) :
      s.cpc = CPc.loopStat → s.flag = true →
      s'.cpc = CPc.join → s'.wpc = s.wpc → s'.flag = s.flag → s'.cycles = s.cycles →
      Step n fails s s'
  | coordJoin (s s' : CState n) :
      s.cpc = CPc.join → (∀ i, s.wpc i = WPc.done) →
      s'.cpc = CPc.exitNormal → s'.wpc = s.wpc → s'.flag = s.flag → s'.cycles = s.cycles →
      Step n fails s s'

/-- All threads created, nobody past the first barrier, flag clear. -/
def initState (n : Nat) : CState n :=
  ⟨fun _ => WPc.start, CPc.atA, false, fun _ => 0⟩

/-- The process has exited (normally or through `fatal`). -/
def Terminal {n : Nat} (s : CState n) : Prop :=
  s.cpc = CPc.exitNormal ∨ s.cpc = CPc.aborted1 ∨ s.cpc = CPc.aborted2

/-- Inductive invariant for the scenario where worker `k` fails
`sched_setattr`. -/
def SInv (n : Nat) (k : Fin n) (s : CState n) : Prop :=
  (s.cpc = CPc.atA → (∀ i, s.wpc i = WPc.start ∨ s.wpc i = WPc.atA) ∧ s.flag = false) ∧
  ((s.cpc = CPc.check1 ∨ s.cpc = CPc.atB ∨ s.cpc = CPc.aborted1) →
    (∀ i, s.wpc i = WPc.prep ∨ s.wpc i = WPc.atB) ∧ s.flag = false) ∧
  ((s.cpc = CPc.check2 ∨ s.cpc = CPc.atC ∨ s.cpc = CPc.aborted2) →
    (∀ i, s.wpc i = WPc.applyAttr ∨ s.wpc i = WPc.atC)) ∧
  ((s.cpc = CPc.loopStat ∨ s.cpc = CPc.join ∨ s.cpc = CPc.exitNormal) →
    (∀ i, s.wpc i = WPc.loopHead ∨ s.wpc i = WPc.done) ∧ s.flag = true) ∧
  ((s.wpc k = WPc.atC ∨ s.wpc k = WPc.done) → s.flag = true) ∧
  (s.cpc ≠ CPc.aborted1) ∧
  (∀ i, s.cycles i = 0)

theorem update_mem2 {n : Nat} {f : Fin n → WPc} {i : Fin n} {p q newp : WPc}
    (hall : ∀ j, f j = p ∨ f j = q) (hnew : newp = p ∨ newp = q) :
    ∀ j, Function.update f i newp j = p ∨ Function.update f i newp j = q := by
  intro j
  by_cases h : j = i
  · subst h
    simpa [Function.update] using hnew
  · simpa [Function.update, h] using hall j

theorem inv_init (n : Nat) (k : Fin n) : SInv n k (initState n) := by
  refine ⟨?_, ?_, ?_, ?_, ?_, ?_, ?_⟩ <;> simp [initState]

theorem phase_start {n : Nat} {k : Fin n} {s : CState n} (hinv : SInv n k s) {i : Fin n}
    (hi : s.wpc i = WPc.start) : s.cpc = CPc.atA := by
  obtain ⟨i1, i2, i3, i4, i5, i6, i7⟩ := hinv
  rcases hcpc : s.cpc with _ | _ | _ | _ | _ | _ | _ | _ | _ | _
  · rfl
  · exfalso; rcases (i2 (Or.inl hcpc)).1 i with h | h <;> rw [hi] at h <;> simp at h
  · exfalso; rcases (i2 (Or.inr (Or.inl hcpc))).1 i with h | h <;> rw [hi] at h <;> simp at h
  · exfalso; rcases i3 (Or.inl hcpc) i with h | h <;> rw [hi] at h <;> simp at h
  · exfalso; rcases i3 (Or.inr (Or.inl hcpc)) i with h | h <;> rw [hi] at h <;> simp at h
  · exfalso; rcases (i4 (Or.inl hcpc)).1 i with h | h <;> rw [hi] at h <;> simp at h
  · exfalso; rcases (i4 (Or.inr (Or.inl hcpc))).1 i with h | h <;> rw [hi] at h <;> simp at h
  · exfalso; rcases (i4 (Or.inr (Or.inr hcpc))).1 i with h | h <;> rw [hi] at h <;> simp at h
  · exfalso; rcases (i2 (Or.inr (Or.inr hcpc))).1 i with h | h <;> rw [hi] at h <;> simp at h
  · exfalso; rcases i3 (Or.inr (Or.inr hcpc)) i with h | h <;> rw [hi] at h <;> simp at h

theorem phase_prep {n : Nat} {k : Fin n} {s : CState n} (hinv : SInv n k s) {i : Fin n}
    (hi : s.wpc i = WPc.prep) :
    s.cpc = CPc.check1 ∨ s.cpc = CPc.atB ∨ s.cpc = CPc.aborted1 := by
  obtain ⟨i1, i2, i3, i4, i5, i6, i7⟩ := hinv
  rcases hcpc : s.cpc with _ | _ | _ | _ | _ | _ | _ | _ | _ | _
  · exfalso; rcases (i1 hcpc).1 i with h | h <;> rw [hi] at h <;> simp at h
  · exact Or.inl rfl
  · exact Or.inr (Or.inl rfl)
  · exfalso; rcases i3 (Or.inl hcpc) i with h | h <;> rw [hi] at h <;> simp at h
  · exfalso; rcases i3 (Or.inr (Or.inl hcpc)) i with h | h <;> rw [hi] at h <;> simp at h
  · exfalso; rcases (i4 (Or.inl hcpc)).1 i with h | h <;> rw [hi] at h <;> simp at h
  · exfalso; rcases (i4 (Or.inr (Or.inl hcpc))).1 i with h | h <;> rw [hi] at h <;> simp at h
  · exfalso; rcases (i4 (Or.inr (Or.inr hcpc))).1 i with h | h <;> rw [hi] at h <;> simp at h
  · exact Or.inr (Or.inr rfl)
  · exfalso; rcases i3 (Or.inr (Or.inr hcpc)) i with h | h <;> rw [hi] at h <;> simp at h

theorem phase_apply {n : Nat} {k : Fin n} {s : CState n} (hinv : SInv n k s) {i : Fin n}
    (hi : s.wpc i = WPc.applyAttr) :
    s.cpc = CPc.check2 ∨ s.cpc = CPc.atC ∨ s.cpc = CPc.aborted2 := by
  obtain ⟨i1, i2, i3, i4, i5, i6, i7⟩ := hinv
  rcases hcpc : s.cpc with _ | _ | _ | _ | _ | _ | _ | _ | _ | _
  · exfalso; rcases (i1 hcpc).1 i with h | h <;> rw [hi] at h <;> simp at h
  · exfalso; rcases (i2 (Or.inl hcpc)).1 i with h | h <;> rw [hi] at h <;> simp at h
  · exfalso; rcases (i2 (Or.inr (Or.inl hcpc))).1 i with h | h <;> rw [hi] at h <;> simp at h
  · exact Or.inl rfl
  · exact Or.inr (Or.inl rfl)
  · exfalso; rcases (i4 (Or.inl hcpc)).1 i with h | h <;> rw [hi] at h <;> simp at h
  · exfalso; rcases (i4 (Or.inr (Or.inl hcpc))).1 i with h | h <;> rw [hi] at h <;> simp at h
  · exfalso; rcases (i4 (Or.inr (Or.inr hcpc))).1 i with h | h <;> rw [hi] at h <;> simp at h
  · exfalso; rcases (i2 (Or.inr (Or.inr hcpc))).1 i with h | h <;> rw [hi] at h <;> simp at h
  · exact Or.inr (Or.inr rfl)

theorem phase_loopHead {n : Nat} {k : Fin n} {s : CState n} (hinv : SInv n k s) {i : Fin n}
    (hi : s.wpc i = WPc.loopHead) :
    s.cpc = CPc.loopStat ∨ s.cpc = CPc.join ∨ s.cpc = CPc.exitNormal := by
  obtain ⟨i1, i2, i3, i4, i5, i6, i7⟩ := hinv
  rcases hcpc : s.cpc with _ | _ | _ | _ | _ | _ | _ | _ | _ | _
  · exfalso; rcases (i1 hcpc).1 i with h | h <;> rw [hi] at h <;> simp at h
  · exfalso; rcases (i2 (Or.inl hcpc)).1 i with h | h <;> rw [hi] at h <;> simp at h
  · exfalso; rcases (i2 (Or.inr (Or.inl hcpc))).1 i with h | h <;> rw [hi] at h <;> simp at h
  · exfalso; rcases i3 (Or.inl hcpc) i with h | h <;> rw [hi] at h <;> simp at h
  · exfalso; rcases i3 (Or.inr (Or.inl hcpc)) i with h | h <;> rw [hi] at h <;> simp at h
  · exact Or.inl rfl
  · exact Or.inr (Or.inl rfl)
  · exact Or.inr (Or.inr rfl)
  · exfalso; rcases (i2 (Or.inr (Or.inr hcpc))).1 i with h | h <;> rw [hi] at h <;> simp at h
  · exfalso; rcases i3 (Or.inr (Or.inr hcpc)) i with h | h <;> rw [hi] at h <;> simp at h

theorem inv_step {n : Nat} {fails : Fin n → Bool} {k : Fin n} (hk : fails k = true)
    {s s' : CState n} (hinv : SInv n k s) (hstep : Step n fails s s') : SInv n k s' := by
  obtain ⟨i1, i2, i3, i4, i5, i6, i7⟩ := hinv
  cases hstep with
  | getattr i hi hw hc hf hcy =>
    have hphase : s.cpc = CPc.atA :=
      phase_start ⟨i1, i2, i3, i4, i5, i6, i7⟩ hi
    obtain ⟨hall, hflag⟩ := i1 hphase
    refine ⟨?_, ?_, ?_, ?_, ?_, ?_, ?_⟩
    · intro _
      rw [hf, hw]
      exact ⟨update_mem2 hall (Or.inr rfl), hflag⟩
    · intro h
      rw [hc, hphase] at h
      simp at h
    · intro h
      rw [hc, hphase] at h
      simp at h
    · intro h
      rw [hc, hphase] at h
      simp at h
    · intro h
      rw [hw] at h
      rw [hf]
      refine i5 ?_
      rcases h with h | h <;> by_cases hik : k = i
      · subst hik; simp [Function.update] at h
      · simp [Function.update, hik] at h
        exact Or.inl h
      · subst hik; simp [Function.update] at h
      · simp [Function.update, hik] at h
        exact Or.inr h
    · rw [hc, hphase]
      simp
    · intro j
      rw [hcy]
      exact i7 j
  | releaseA hall hc hw hc' hf hcy =>
    obtain ⟨_, hflag⟩ := i1 hc
    refine ⟨?_, ?_, ?_, ?_, ?_, ?_, ?_⟩
    · intro h
      rw [hc'] at h
      simp at h
    · intro _
      rw [hf, hw]
      exact ⟨fun i => Or.inl rfl, hflag⟩
    · intro h
      rw [hc'] at h
      simp at h
    · intro h
      rw [hc'] at h
      simp at h
    · intro h
      rw [hw] at h
      simp at h
    · rw [hc']
      simp
    · intro j
      rw [hcy]
      exact i7 j
  | prepStep i hi hw hc hf hcy =>
    have hphase : s.cpc = CPc.check1 ∨ s.cpc = CPc.atB ∨ s.cpc = CPc.aborted1 :=
      phase_prep ⟨i1, i2, i3, i4, i5, i6, i7⟩ hi
    obtain ⟨hall, hflag⟩ := i2 hphase
    have hnotab : s.cpc ≠ CPc.aborted1 := i6
    refine ⟨?_, ?_, ?_, ?_, ?_, ?_, ?_⟩
    · intro h
      rw [hc] at h
      rcases hphase with hh | hh | hh <;> rw [hh] at h <;> simp at h
    · intro _
      rw [hf, hw]
      exact ⟨update_mem2 hall (Or.inr rfl), hflag⟩
    · intro h
      rw [hc] at h
      rcases hphase with hh | hh | hh <;> rw [hh] at h <;> simp at h
    · intro h
      rw [hc] at h
      rcases hphase with hh | hh | hh <;> rw [hh] at h <;> simp at h
    · intro h
      rw [hw] at h
      rw [hf]
      refine i5 ?_
      rcases h with h | h <;> by_cases hik : k = i
      · subst hik; simp [Function.update] at h
      · simp [Function.update, hik] at h
        exact Or.inl h
      · subst hik; simp [Function.update] at h
      · simp [Function.update, hik] at h
        exact Or.inr h
    · rw [hc]
      exact hnotab
    · intro j
      rw [hcy]
      exact i7 j
  | check1Step hc hc' hw hf hcy =>
    obtain ⟨hall, hflag⟩ := i2 (Or.inl hc)
    rw [hflag] at hc'
    simp at hc'
    refine ⟨?_, ?_, ?_, ?_, ?_, ?_, ?_⟩
    · intro h
      rw [hc'] at h
      simp at h
    · intro _
      rw [hf, hw]
      exact ⟨hall, hflag⟩
    · intro h
      rw [hc'] at h
      simp at h
    · intro h
      rw [hc'] at h
      simp at h
    · intro h
      rw [hw] at h
      rw [hf]
      exact i5 h
    · rw [hc']
      simp
    · intro j
      rw [hcy]
      exact i7 j
  | releaseB hall hc hw hc' hf hcy =>
    refine ⟨?_, ?_, ?_, ?_, ?_, ?_, ?_⟩
    · intro h
      rw [hc'] at h
      simp at h
    · intro h
      rw [hc'] at h
      simp at h
    · intro _
      rw [hw]
      exact fun i => Or.inl rfl
    · intro h
      rw [hc'] at h
      simp at h
    · intro h
      rw [hw] at h
      simp at h
    · rw [hc']
      simp
    · intro j
      rw [hcy]
      exact i7 j
  | applyStep i hi hw hf hc hcy =>
    have hphase : s.cpc = CPc.check2 ∨ s.cpc = CPc.atC ∨ s.cpc = CPc.aborted2 :=
      phase_apply ⟨i1, i2, i3, i4, i5, i6, i7⟩ hi
    have hwall := i3 hphase
    refine ⟨?_, ?_, ?_, ?_, ?_, ?_, ?_⟩
    · intro h
      rw [hc] at h
      rcases hphase with hh | hh | hh <;> rw [hh] at h <;> simp at h
    · intro h
      rw [hc] at h
      rcases hphase with hh | hh | hh <;> rw [hh] at h <;> simp at h
    · intro _
      rw [hw]
      exact update_mem2 hwall (Or.inr rfl)
    · intro h
      rw [hc] at h
      rcases hphase with hh | hh | hh <;> rw [hh] at h <;> simp at h
    · intro h
      rw [hw] at h
      rw [hf]
      by_cases hik : k = i
      · subst hik
        rw [hk]
        simp
      · rcases h with h | h <;> simp [Function.update, hik] at h
        · rw [i5 (Or.inl h)]
          simp
        · rw [i5 (Or.inr h)]
          simp
    · rw [hc]
      rcases hphase with hh | hh | hh <;> rw [hh] <;> simp
    · intro j
      rw [hcy]
      exact i7 j
  | check2Step hc hc' hw hf hcy =>
    have hwall := i3 (Or.inl hc)
    refine ⟨?_, ?_, ?_, ?_, ?_, ?_, ?_⟩
    · intro h
      rw [hc'] at h
      split at h <;> simp at h
    · intro h
      rw [hc'] at h
      split at h <;> simp at h
    · intro _
      rw [hw]
      exact hwall
    · intro h
      rw [hc'] at h
      split at h <;> simp at h
    · intro h
      rw [hw] at h
      rw [hf]
      exact i5 h
    · rw [hc']
      split <;> simp
    · intro j
      rw [hcy]
      exact i7 j
  | releaseC hall hc hw hc' hf hcy =>
    have hflag : s.flag = true := i5 (Or.inl (hall k))
    refine ⟨?_, ?_, ?_, ?_, ?_, ?_, ?_⟩
    · intro h
      rw [hc'] at h
      simp at h
    · intro h
      rw [hc'] at h
      simp at h
    · intro h
      rw [hc'] at h
      simp at h
    · intro _
      rw [hf, hw]
      refine ⟨fun i => ?_, hflag⟩
      by_cases hfi : fails i = true
      · simp [hfi]
      · simp [hfi]
    · intro _
      rw [hf]
      exact hflag
    · rw [hc']
      simp
    · intro j
      rw [hcy]
      exact i7 j
  | loopExit i hi hflag hw hc hf hcy =>
    have hphase : s.cpc = CPc.loopStat ∨ s.cpc = CPc.join ∨ s.cpc = CPc.exitNormal :=
      phase_loopHead ⟨i1, i2, i3, i4, i5, i6, i7⟩ hi
    have hwall := (i4 hphase).1
    refine ⟨?_, ?_, ?_, ?_, ?_, ?_, ?_⟩
    · intro h
      rw [hc] at h
      rcases hphase with hh | hh | hh <;> rw [hh] at h <;> simp at h
    · intro h
      rw [hc] at h
      rcases hphase with hh | hh | hh <;> rw [hh] at h <;> simp at h
    · intro h
      rw [hc] at h
      rcases hphase with hh | hh | hh <;> rw [hh] at h <;> simp at h
    · intro _
      rw [hf, hw]
      exact ⟨update_mem2 hwall (Or.inr rfl), hflag⟩
    · intro _
      rw [hf]
      exact hflag
    · rw [hc]
      rcases hphase with hh | hh | hh <;> rw [hh] <;> simp
    · intro j
      rw [hcy]
      exact i7 j
  | cycleStep i hi hflag hcy hw hc hf =>
    exfalso
    have hphase : s.cpc = CPc.loopStat ∨ s.cpc = CPc.join ∨ s.cpc = CPc.exitNormal :=
      phase_loopHead ⟨i1, i2, i3, i4, i5, i6, i7⟩ hi
    have := (i4 hphase).2
    rw [hflag] at this
    simp at this
  | coordExitLoop hc hflag hc' hw hf hcy =>
    have h4 := i4 (Or.inl hc)
    refine ⟨?_, ?_, ?_, ?_, ?_, ?_, ?_⟩
    · intro h
      rw [hc'] at h
      simp at h
    · intro h
      rw [hc'] at h
      simp at h
    · intro h
      rw [hc'] at h
      simp at h
    · intro _
      rw [hf, hw]
      exact ⟨h4.1, h4.2⟩
    · intro h
      rw [hw] at h
      rw [hf]
      exact i5 h
    · rw [hc']
      simp
    · intro j
      rw [hcy]
      exact i7 j
  | coordJoin hc hall hc' hw hf hcy =>
    have h4 := i4 (Or.inr (Or.inl hc))
    refine ⟨?_, ?_, ?_, ?_, ?_, ?_, ?_⟩
    · intro h
      rw [hc'] at h
      simp at h
    · intro h
      rw [hc'] at h
      simp at h
    · intro h
      rw [hc'] at h
      simp at h
    · intro _
      rw [hf, hw]
      exact ⟨h4.1, h4.2⟩
    · intro h
      rw [hw] at h
      rw [hf]
      exact i5 h
    · rw [hc']
      simp
    · intro j
      rw [hcy]
      exact i7 j

theorem inv_reachable {n : Nat} {fails : Fin n → Bool} {k : Fin n} (hk : fails k = true)
    {s : CState n} (h : Relation.ReflTransGen (Step n fails) (initState n) s) :
    SInv n k s := by
  induction h with
  | refl => exact inv_init n k
  | tail h₁ h₂ ih => exact inv_step hk ih h₂

/-- A normal exit implies every worker has terminated (was joined). -/
theorem exitNormal_all_done {n : Nat} {fails : Fin n → Bool} {k : Fin n}
    (hk : fails k = true) {s : CState n}
    (h : Relation.ReflTransGen (Step n fails) (initState n) s) :
    s.cpc = CPc.exitNormal → ∀ i, s.wpc i = WPc.done := by
  induction h with
  | refl =>
    intro h
    simp [initState] at h
  | @tail b c h₁ h₂ ih =>
    have hinvb := inv_reachable hk h₁
    intro hc i
    cases h₂ with
    | getattr i' hi hw hcpc hf hcy =>
      exfalso
      rw [hcpc, phase_start hinvb hi] at hc
      simp at hc
    | releaseA hall hcb hw hcpc hf hcy =>
      exfalso
      rw [hcpc] at hc
      simp at hc
    | prepStep i' hi hw hcpc hf hcy =>
      exfalso
      rw [hcpc] at hc
      rcases phase_prep hinvb hi with hh | hh | hh <;> rw [hh] at hc <;> simp at hc
    | check1Step hcb hcpc hw hf hcy =>
      exfalso
      rw [hcpc] at hc
      split at hc <;> simp at hc
    | releaseB hall hcb hw hcpc hf hcy =>
      exfalso
      rw [hcpc] at hc
      simp at hc
    | applyStep i' hi hw hf hcpc hcy =>
      exfalso
      rw [hcpc] at hc
      rcases phase_apply hinvb hi with hh | hh | hh <;> rw [hh] at hc <;> simp at hc
    | check2Step hcb hcpc hw hf hcy =>
      exfalso
      rw [hcpc] at hc
      split at hc <;> simp at hc
    | releaseC hall hcb hw hcpc hf hcy =>
      exfalso
      rw [hcpc] at hc
      simp at hc
    | loopExit i' hi hflag hw hcpc hf hcy =>
      rw [hcpc] at hc
      have hall := ih hc
      rw [hw]
      by_cases hii : i = i'
      · subst hii
        simp [Function.update]
      · rw [Function.update_noteq hii]
        exact hall i
    | cycleStep i' hi hflag hcy hw hcpc hf =>
      exfalso
      obtain ⟨i1, i2, i3, i4, i5, i6, i7⟩ := hinvb
      have := (i4 (phase_loopHead ⟨i1, i2, i3, i4, i5, i6, i7⟩ hi)).2
      rw [hflag] at this
      simp at this
    | coordExitLoop hcb hflag hcpc hw hf hcy =>
      exfalso
      rw [hcpc] at hc
      simp at hc
    | coordJoin hcb hall hcpc hw hf hcy =>
      rw [hw]
      exact hall i

/-! ### Termination and progress -/

def wRank : WPc → Nat
  | .start => 7
  | .atA => 6
  | .prep => 5
  | .atB => 4
  | .applyAttr => 3
  | .atC => 2
  | .loopHead => 1
  | .done => 0

def cRank : CPc → Nat
  | .atA => 8
  | .check1 => 7
  | .atB => 6
  | .check2 => 5
  | .atC => 4
  | .loopStat => 3
  | .join => 2
  | .exitNormal => 0
  | .aborted1 => 0
  | .aborted2 => 0

def cmeasure {n : Nat} (s : CState n) : Nat :=
  cRank s.cpc + Finset.univ.sum (fun i => wRank (s.wpc i))

theorem sum_wRank_update {n : Nat} (f : Fin n → WPc) (i : Fin n) (p : WPc)
    (h : wRank p < wRank (f i)) :
    (Finset.univ.sum fun j => wRank (Function.update f i p j)) <
      Finset.univ.sum fun j => wRank (f j) := by
  have hfun : (fun j => wRank (Function.update f i p j)) =
      Function.update (fun j => wRank (f j)) i (wRank p) := by
    funext j
    by_cases hj : j = i
    · subst hj
      simp [Function.update]
    · simp [Function.update, hj]
  rw [hfun, Finset.sum_update_of_mem (Finset.mem_univ i)]
  conv_rhs => rw [← Finset.add_sum_erase _ _ (Finset.mem_univ i), Finset.erase_eq]
  omega

theorem sum_wRank_le {n : Nat} (f g : Fin n → WPc) (h : ∀ i, wRank (f i) ≤ wRank (g i)) :
    (Finset.univ.sum fun j => wRank (f j)) ≤ Finset.univ.sum fun j => wRank (g j) :=
  Finset.sum_le_sum (fun i _ => h i)

theorem step_decrease {n : Nat} {fails : Fin n → Bool} {k : Fin n} (hk : fails k = true)
    {s s' : CState n} (hinv : SInv n k s) (hstep : Step n fails s s') :
    cmeasure s' < cmeasure s := by
  obtain ⟨i1, i2, i3, i4, i5, i6, i7⟩ := hinv
  cases hstep with
  | getattr i hi hw hc hf hcy =>
    unfold cmeasure
    rw [hc, hw]
    have := sum_wRank_update s.wpc i WPc.atA (by rw [hi]; simp [wRank])
    omega
  | releaseA hall hc hw hc' hf hcy =>
    unfold cmeasure
    rw [hc', hc, hw]
    have hle : (Finset.univ.sum fun i : Fin n => wRank ((fun _ => WPc.prep) i)) ≤
        Finset.univ.sum fun i => wRank (s.wpc i) :=
      Finset.sum_le_sum (fun i _ => by
        show wRank WPc.prep ≤ wRank (s.wpc i)
        rw [hall i]
        decide)
    have h1 : cRank CPc.check1 = 7 := rfl
    have h2 : cRank CPc.atA = 8 := rfl
    omega
  | prepStep i hi hw hc hf hcy =>
    unfold cmeasure
    rw [hc, hw]
    have := sum_wRank_update s.wpc i WPc.atB (by rw [hi]; simp [wRank])
    omega
  | check1Step hc hc' hw hf hcy =>
    unfold cmeasure
    rw [hc', hc, hw]
    have hif : cRank (if s.flag then CPc.aborted1 else CPc.atB) ≤ 6 := by
      split <;> decide
    have h1 : cRank CPc.check1 = 7 := rfl
    omega
  | releaseB hall hc hw hc' hf hcy =>
    unfold cmeasure
    rw [hc', hc, hw]
    have hle : (Finset.univ.sum fun i : Fin n => wRank ((fun _ => WPc.applyAttr) i)) ≤
        Finset.univ.sum fun i => wRank (s.wpc i) :=
      Finset.sum_le_sum (fun i _ => by
        show wRank WPc.applyAttr ≤ wRank (s.wpc i)
        rw [hall i]
        decide)
    have h1 : cRank CPc.check2 = 5 := rfl
    have h2 : cRank CPc.atB = 6 := rfl
    omega
  | applyStep i hi hw hf hc hcy =>
    unfold cmeasure
    rw [hc, hw]
    have := sum_wRank_update s.wpc i WPc.atC (by rw [hi]; simp [wRank])
    omega
  | check2Step hc hc' hw hf hcy =>
    unfold cmeasure
    rw [hc', hc, hw]
    have hif : cRank (if s.flag then CPc.aborted2 else CPc.atC) ≤ 4 := by
      split <;> decide
    have h1 : cRank CPc.check2 = 5 := rfl
    omega
  | releaseC hall hc hw hc' hf hcy =>
    unfold cmeasure
    rw [hc', hc, hw]
    have hle : (Finset.univ.sum fun i : Fin n =>
        wRank ((fun i => if fails i then WPc.done else WPc.loopHead) i)) ≤
        Finset.univ.sum fun i => wRank (s.wpc i) :=
      Finset.sum_le_sum (fun i _ => by
        show wRank (if fails i then WPc.done else WPc.loopHead) ≤ wRank (s.wpc i)
        rw [hall i]
        split <;> decide)
    have h1 : cRank CPc.loopStat = 3 := rfl
    have h2 : cRank CPc.atC = 4 := rfl
    omega
  | loopExit i hi hflag hw hc hf hcy =>
    unfold cmeasure
    rw [hc, hw]
    have := sum_wRank_update s.wpc i WPc.done (by rw [hi]; simp [wRank])
    omega
  | cycleStep i hi hflag hcy hw hc hf =>
    exfalso
    have := (i4 (phase_loopHead ⟨i1, i2, i3, i4, i5, i6, i7⟩ hi)).2
    rw [hflag] at this
    simp at this
  | coordExitLoop hc hflag hc' hw hf hcy =>
    unfold cmeasure
    rw [hc', hc, hw]
    have h1 : cRank CPc.join = 2 := rfl
    have h2 : cRank CPc.loopStat = 3 := rfl
    omega
  | coordJoin hc hall hc' hw hf hcy =>
    unfold cmeasure
    rw [hc', hc, hw]
    have h1 : cRank CPc.exitNormal = 0 := rfl
    have h2 : cRank CPc.join = 2 := rfl
    omega

theorem progress {n : Nat} {fails : Fin n → Bool} {k : Fin n} (hk : fails k = true)
    {s : CState n} (hinv : SInv n k s) (hterm : ¬ Terminal s) :
    ∃ s', Step n fails s s' := by
  obtain ⟨i1, i2, i3, i4, i5, i6, i7⟩ := hinv
  rcases hcpc : s.cpc with _ | _ | _ | _ | _ | _ | _ | _ | _ | _
  · by_cases hall : ∀ i, s.wpc i = WPc.atA
    · exact ⟨{ s with wpc := (fun _ => WPc.prep), cpc := CPc.check1 },
        Step.releaseA s _ hall hcpc rfl rfl rfl rfl⟩
    · push_neg at hall
      obtain ⟨i, hi⟩ := hall
      have hstart : s.wpc i = WPc.start := by
        rcases (i1 hcpc).1 i with h | h
        · exact h
        · exact absurd h hi
      exact ⟨{ s with wpc := Function.update s.wpc i WPc.atA },
        Step.getattr s _ i hstart rfl rfl rfl rfl⟩
  · exact ⟨{ s with cpc := if s.flag then CPc.aborted1 else CPc.atB },
      Step.check1Step s _ hcpc rfl rfl rfl rfl⟩
  · by_cases hall : ∀ i, s.wpc i = WPc.atB
    · exact ⟨{ s with wpc := (fun _ => WPc.applyAttr), cpc := CPc.check2 },
        Step.releaseB s _ hall hcpc rfl rfl rfl rfl⟩
    · push_neg at hall
      obtain ⟨i, hi⟩ := hall
      have hprep : s.wpc i = WPc.prep := by
        rcases (i2 (Or.inr (Or.inl hcpc))).1 i with h | h
        · exact h
        · exact absurd h hi
      exact ⟨{ s with wpc := Function.update s.wpc i WPc.atB },
        Step.prepStep s _ i hprep rfl rfl rfl rfl⟩
  · exact ⟨{ s with cpc := if s.flag then CPc.aborted2 else CPc.atC },
      Step.check2Step s _ hcpc rfl rfl rfl rfl⟩
  · by_cases hall : ∀ i, s.wpc i = WPc.atC
    · exact ⟨{ s with wpc := (fun i => if fails i then WPc.done else WPc.loopHead), cpc := CPc.loopStat },
        Step.releaseC s _ hall hcpc rfl rfl rfl rfl⟩
    · push_neg at hall
      obtain ⟨i, hi⟩ := hall
      have happ : s.wpc i = WPc.applyAttr := by
        rcases i3 (Or.inr (Or.inl hcpc)) i with h | h
        · exact h
        · exact absurd h hi
      exact ⟨{ s with wpc := Function.update s.wpc i WPc.atC, flag := s.flag || fails i },
        Step.applyStep s _ i happ rfl rfl rfl rfl⟩
  · have hflag : s.flag = true := (i4 (Or.inl hcpc)).2
    exact ⟨{ s with cpc := CPc.join },
      Step.coordExitLoop s _ hcpc hflag rfl rfl rfl rfl⟩
  · by_cases hall : ∀ i, s.wpc i = WPc.done
    · exact ⟨{ s with cpc := CPc.exitNormal },
        Step.coordJoin s _ hcpc hall rfl rfl rfl rfl⟩
    · push_neg at hall
      obtain ⟨i, hi⟩ := hall
      have hloop : s.wpc i = WPc.loopHead := by
        rcases (i4 (Or.inr (Or.inl hcpc))).1 i with h | h
        · exact h
        · exact absurd h hi
      have hflag : s.flag = true := (i4 (Or.inr (Or.inl hcpc))).2
      exact ⟨{ s with wpc := Function.update s.wpc i WPc.done },
        Step.loopExit s _ i hloop hflag rfl rfl rfl rfl⟩
  · exact absurd (Or.inl hcpc) hterm
  · exact absurd (Or.inr (Or.inl hcpc)) hterm
  · exact absurd (Or.inr (Or.inr hcpc)) hterm

theorem reach_terminal_aux {n : Nat} {fails : Fin n → Bool} {k : Fin n}
    (hk : fails k = true) :
    ∀ (m : Nat) (s : CState n), cmeasure s ≤ m → SInv n k s →
    ∃ t, Relation.ReflTransGen (Step n fails) s t ∧ Terminal t := by
  intro m
  induction m with
  | zero =>
    intro s hm hinv
    by_cases ht : Terminal s
    · exact ⟨s, Relation.ReflTransGen.refl, ht⟩
    · obtain ⟨s', hstep⟩ := progress hk hinv ht
      have := step_decrease hk hinv hstep
      omega
  | succ m ih =>
    intro s hm hinv
    by_cases ht : Terminal s
    · exact ⟨s, Relation.ReflTransGen.refl, ht⟩
    · obtain ⟨s', hstep⟩ := progress hk hinv ht
      have hdec := step_decrease hk hinv hstep
      obtain ⟨t, hrt, htt⟩ := ih s' (by omega) (inv_step hk hinv hstep)
      exact ⟨t, Relation.ReflTransGen.head hstep hrt, htt⟩

theorem fin1_update (f : Fin 1 → WPc) (p : WPc) :
    Function.update f 0 p = fun _ => p := by
  funext i
  have hi : i = 0 := Fin.ext (by omega)
  rw [hi]
  simp [Function.update]

/-- Claim C2 counterexample: with a single worker whose `sched_setattr` fails,
there is a complete execution in which the coordinator passes its second flag
check before the failure is recorded, the worker then sets the shutdown flag
and leaves through the third barrier, and the coordinator — which has no flag
check after the attribute-application barrier — joins the worker and exits
through the NORMAL exit path (`exitNormal`, not an abort), with the flag set.
So the coordinator does not "check the flag immediately after the
attribute-application barrier and abort". -/
theorem C2_counterexample :
    Relation.ReflTransGen (Step 1 (fun _ => true)) (initState 1)
      (CState.mk (fun _ => WPc.done) CPc.exitNormal true (fun _ => 0)) ∧
    Terminal (CState.mk (fun _ => WPc.done) CPc.exitNormal true (fun _ => 0) : CState 1) ∧
    (CState.mk (fun _ => WPc.done) CPc.exitNormal true (fun _ => 0) : CState 1).flag = true ∧
    (CState.mk (fun _ => WPc.done) CPc.exitNormal true (fun _ => 0) : CState 1).cpc ≠ CPc.aborted1 ∧
    (CState.mk (fun _ => WPc.done) CPc.exitNormal true (fun _ => 0) : CState 1).cpc ≠ CPc.aborted2 := by
  refine ⟨?_, Or.inl rfl, rfl, by decide, by decide⟩
  have h1 : Step 1 (fun _ => true) (initState 1)
      (CState.mk (fun _ => WPc.atA) CPc.atA false (fun _ => 0)) :=
    Step.getattr _ _ 0 rfl (fin1_update _ _).symm rfl rfl rfl
  have h2 : Step 1 (fun _ => true)
      (CState.mk (fun _ => WPc.atA) CPc.atA false (fun _ => 0))
      (CState.mk (fun _ => WPc.prep) CPc.check1 false (fun _ => 0)) :=
    Step.releaseA _ _ (fun _ => rfl) rfl rfl rfl rfl rfl
  have h3 : Step 1 (fun _ => true)
      (CState.mk (fun _ => WPc.prep) CPc.check1 false (fun _ => 0))
      (CState.mk (fun _ => WPc.prep) CPc.atB false (fun _ => 0)) :=
    Step.check1Step _ _ rfl rfl rfl rfl rfl
  have h4 : Step 1 (fun _ => true)
      (CState.mk (fun _ => WPc.prep) CPc.atB false (fun _ => 0))
      (CState.mk (fun _ => WPc.atB) CPc.atB false (fun _ => 0)) :=
    Step.prepStep _ _ 0 rfl (fin1_update _ _).symm rfl rfl rfl
  have h5 : Step 1 (fun _ => true)
      (CState.mk (fun _ => WPc.atB) CPc.atB false (fun _ => 0))
      (CState.mk (fun _ => WPc.applyAttr) CPc.check2 false (fun _ => 0)) :=
    Step.releaseB _ _ (fun _ => rfl) rfl rfl rfl rfl rfl
  have h6 : Step 1 (fun _ => true)
      (CState.mk (fun _ => WPc.applyAttr) CPc.check2 false (fun _ => 0))
      (CState.mk (fun _ => WPc.applyAttr) CPc.atC false (fun _ => 0)) :=
    Step.check2Step _ _ rfl rfl rfl rfl rfl
  have h7 : Step 1 (fun _ => true)
      (CState.mk (fun _ => WPc.applyAttr) CPc.atC false (fun _ => 0))
      (CState.mk (fun _ => WPc.atC) CPc.atC true (fun _ => 0)) :=
    Step.applyStep _ _ 0 rfl (fin1_update _ _).symm rfl rfl rfl
  have h8 : Step 1 (fun _ => true)
      (CState.mk (fun _ => WPc.atC) CPc.atC true (fun _ => 0))
      (CState.mk (fun _ => WPc.done) CPc.loopStat true (fun _ => 0)) :=
    Step.releaseC _ _ (fun _ => rfl) rfl rfl rfl rfl rfl
  have h9 : Step 1 (fun _ => true)
      (CState.mk (fun _ => WPc.done) CPc.loopStat true (fun _ => 0))
      (CState.mk (fun _ => WPc.done) CPc.join true (fun _ => 0)) :=
    Step.coordExitLoop _ _ rfl rfl rfl rfl rfl rfl
  have h10 : Step 1 (fun _ => true)
      (CState.mk (fun _ => WPc.done) CPc.join true (fun _ => 0))
      (CState.mk (fun _ => WPc.done) CPc.exitNormal true (fun _ => 0)) :=
    Step.coordJoin _ _ rfl (fun _ => rfl) rfl rfl rfl rfl
  exact Relation.ReflTransGen.head h1 (Relation.ReflTransGen.head h2
    (Relation.ReflTransGen.head h3 (Relation.ReflTransGen.head h4
    (Relation.ReflTransGen.head h5 (Relation.ReflTransGen.head h6
    (Relation.ReflTransGen.head h7 (Relation.ReflTransGen.head h8
    (Relation.ReflTransGen.head h9 (Relation.ReflTransGen.head h10
    Relation.ReflTransGen.refl)))))))))

/-- Claim C2 (amended): if some worker's `sched_setattr` fails, then in every
reachable state no worker has completed a steady-state measurement cycle, a
normal exit implies the shutdown flag was set and every worker terminated (so
all threads were joinable), and from every reachable state the run can continue
to a terminal state — no participant hangs at a barrier. (The original claim's
final conjunct is false: the coordinator performs no flag check after the
attribute-application barrier, see the counterexample.) -/
theorem C2_setattr_failure_protocol (n : Nat) (fails : Fin n → Bool) (k : Fin n)
    (hk : fails k = true) :
    ∀ s : CState n, Relation.ReflTransGen (Step n fails) (initState n) s →
      (∀ i, s.cycles i = 0) ∧
      (s.cpc = CPc.exitNormal → s.flag = true ∧ ∀ i, s.wpc i = WPc.done) ∧
      ∃ t, Relation.ReflTransGen (Step n fails) s t ∧ Terminal t := by
  intro s hs
  have hinv := inv_reachable hk hs
  refine ⟨hinv.2.2.2.2.2.2, fun hc => ⟨(hinv.2.2.2.1 (Or.inr (Or.inr hc))).2,
    exitNormal_all_done hk hs hc⟩, ?_⟩
  exact reach_terminal_aux hk (cmeasure s) s le_rfl hinv

theorem C2_setattr_failure_protocol_witness :
    (∀ i, (initState 1).cycles i = 0) ∧
    ((initState 1).cpc = CPc.exitNormal →
      (initState 1).flag = true ∧ ∀ i, (initState 1).wpc i = WPc.done) ∧
    ∃ t, Relation.ReflTransGen (Step 1 (fun _ => true)) (initState 1) t ∧ Terminal t :=
  C2_setattr_failure_protocol 1 (fun _ => true) 0 rfl (initState 1)
    Relation.ReflTransGen.refl
